import Mathlib

/-!
Verification of the worker-orchestration subsystem of the pi-vs-cc repository
(extensions/agent-team.ts, extensions/agent-chain.ts, the subagent-widget part
of the extensions bundle, extensions/utils/subprocess-env.ts and
extensions/utils/agent-loader.ts) against its natural-language specification.

JS strings are modelled as `List Char` (UTF-16 subtleties outside the ASCII
range are irrelevant to every property below).  JS records are modelled as
insertion-ordered association lists with overwriting assignment.  Purely
external facilities (the file system, JSON.parse, the spawned subprocess) are
modelled as explicit parameters.
-/

set_option maxRecDepth 20000

namespace PiSpec

/-- JS strings as lists of characters. -/
abbrev Str := List Char

/-- ASCII whitespace, the fragment of the JS `\s` class / `String.trim`
relevant here (space, tab, LF, CR, VT, FF). -/
def jsWs (c : Char) : Bool :=
  c = ' ' || c = '\t' || c = '\n' || c = '\r' || c = Char.ofNat 11 || c = Char.ofNat 12

/-- JS `String.prototype.trim` (both ends). -/
def jsTrim (s : Str) : Str :=
  ((s.dropWhile jsWs).reverse.dropWhile jsWs).reverse

/-- JS `s.split(sep)` for a single separator character described by a
predicate; always returns at least one (possibly empty) segment, exactly like
the JS version. -/
def splitPred (p : Char → Bool) : Str → List Str
  | [] => [[]]
  | c :: cs => if p c then [] :: splitPred p cs else (splitPred p cs).modifyHead (c :: ·)

/-- JS `s.split("\n")`. -/
def splitNl (s : Str) : List Str := splitPred (fun c => c = '\n') s

/-- Decimal rendering of a natural number, as in JS template interpolation. -/
def natStr (n : Nat) : Str := (Nat.repr n).data

/-- Join a list of strings with a separator, as JS `Array.prototype.join`. -/
def joinSep (sep : Str) : List Str → Str
  | [] => []
  | [x] => x
  | x :: y :: xs => x ++ sep ++ joinSep sep (y :: xs)

/-- Substring test (JS `String.prototype.includes`), used to state that a
message "mentions" or "names" something. -/
def containsSub (needle : Str) : Str → Bool
  | [] => needle.isPrefixOf []
  | c :: cs => needle.isPrefixOf (c :: cs) || containsSub needle cs

-- ── JS records as insertion-ordered association lists ──────────────────

/-- A JS object used as a string-keyed record. -/
abbrev EnvRecord := List (Str × Str)

/-- Key presence test of a JS record (`k in r`, used by record assignment). -/
def hasKey : EnvRecord → Str → Bool
  | [], _ => false
  | p :: r, k => decide (p.1 = k) || hasKey r k

/-- JS record assignment `r[k] = v`: overwrites in place if the key exists,
otherwise appends (insertion order preserved). -/
def recordSet (r : EnvRecord) (k v : Str) : EnvRecord :=
  if hasKey r k then
    r.map (fun p => if p.1 = k then (k, v) else p)
  else r ++ [(k, v)]

/-- JS record read `r[k]`. -/
def recordGet : EnvRecord → Str → Option Str
  | [], _ => none
  | p :: r, k => if p.1 = k then some p.2 else recordGet r k

/-- Keys of a JS record in insertion order (`Object.keys`). -/
def recordKeys (r : EnvRecord) : List Str := r.map (fun p => p.1)

theorem recordGet_nil (k : Str) : recordGet [] k = none := rfl

theorem recordGet_cons (p : Str × Str) (r : EnvRecord) (k : Str) :
    recordGet (p :: r) k = if p.1 = k then some p.2 else recordGet r k := rfl

theorem recordGet_append_single (r : EnvRecord) (k v k' : Str)
    (hout : hasKey r k = false) :
    recordGet (r ++ [(k, v)]) k' = if k' = k then some v else recordGet r k' := by
  induction r with
  | nil =>
    rw [List.nil_append, recordGet_cons]
    by_cases h : k' = k
    · subst h; simp
    · rw [if_neg (fun hh => h hh.symm), if_neg h]
  | cons p r ih =>
    simp only [hasKey, Bool.or_eq_false_iff, decide_eq_false_iff_not] at hout
    rw [List.cons_append, recordGet_cons, recordGet_cons]
    by_cases hp : p.1 = k'
    · have hk : ¬ k' = k := fun h => hout.1 (hp.trans h)
      rw [if_pos hp, if_neg hk, if_pos hp]
    · rw [if_neg hp, if_neg hp, ih hout.2]

theorem recordGet_map_overwrite (r : EnvRecord) (k v k' : Str) :
    recordGet (r.map (fun p => if p.1 = k then (k, v) else p)) k' =
      if k' = k ∧ hasKey r k = true then some v
      else recordGet r k' := by
  induction r with
  | nil => simp [recordGet, hasKey]
  | cons p r ih =>
    simp only [List.map_cons, recordGet_cons, hasKey]
    by_cases hp : p.1 = k
    · by_cases hk : k' = k
      · simp [hp, hk]
      · have hk2 : ¬ k = k' := fun h => hk h.symm
        simp [hp, hk, hk2, ih]
    · by_cases hpk : p.1 = k'
      · have hk : ¬ k' = k := fun h => hp (hpk.trans h)
        have hk2 : ¬ k = k' := fun h => hk h.symm
        simp [hp, hpk, hk, hk2]
      · simp [hp, hpk, ih]

theorem recordGet_recordSet (r : EnvRecord) (k v k' : Str) :
    recordGet (recordSet r k v) k' = if k' = k then some v else recordGet r k' := by
  unfold recordSet
  by_cases h : hasKey r k = true
  · rw [if_pos h, recordGet_map_overwrite]
    by_cases hk : k' = k
    · rw [if_pos ⟨hk, h⟩, if_pos hk]
    · rw [if_neg (fun hh => hk hh.1), if_neg hk]
  · rw [if_neg h]
    exact recordGet_append_single r k v k' (by simpa using h)

-- ── extensions/utils/subprocess-env.ts ─────────────────────────────────

/-- The `SYSTEM_VARS` constant: system essentials every subprocess needs. -/
def SYSTEM_VARS : List Str :=
  ["PATH".data, "HOME".data, "TERM".data, "LANG".data, "SHELL".data,
   "USER".data, "TMPDIR".data]

/-- The `PROVIDER_KEY_MAP` lookup (`getProviderKeyName`): env var name for a
provider, `none` for an unknown provider. -/
def getProviderKeyName (provider : Str) : Option Str :=
  if provider = "anthropic".data then some ("ANTHROPIC_API_KEY".data)
  else if provider = "openai".data then some ("OPENAI_API_KEY".data)
  else if provider = "google".data then some ("GEMINI_API_KEY".data)
  else if provider = "openrouter".data then some ("OPENROUTER_API_KEY".data)
  else none

/-- `ALL_API_KEYS`: all credential variable names in the static table. -/
def ALL_API_KEYS : List Str :=
  ["ANTHROPIC_API_KEY".data, "OPENAI_API_KEY".data, "GEMINI_API_KEY".data,
   "OPENROUTER_API_KEY".data]

/-- `extractProvider`: lowercased text before the first `/` of a model
identifier; `none` for the empty string or an identifier without `/`. -/
def extractProvider (model : Str) : Option Str :=
  if model = [] then none
  else if model.contains '/' then
    some ((model.takeWhile (fun c => c ≠ '/')).map Char.toLower)
  else none

/-- Composition used by `buildSubprocessEnv` step 2: the credential variable
name selected by a model identifier, if any. -/
def providerCredential (model : Str) : Option Str :=
  (extractProvider model).bind getProviderKeyName

/-- `parseAgentEnvField`: split a comma/whitespace separated list of variable
names, trimming entries and dropping empties (`undefined` is `none`). -/
def parseAgentEnvField (envField : Option Str) : List Str :=
  match envField with
  | none => []
  | some s =>
    if s = [] then []
    else ((splitPred (fun c => c = ',' || jsWs c) s).map jsTrim).filter (fun t => t ≠ [])

/-- JS truthy read of the source environment: a variable counts only when it
is defined and non-empty (`if (parentEnv[key])`). -/
def envTruthy (parentEnv : Str → Option Str) (k : Str) : Option Str :=
  match parentEnv k with
  | some v => if v = [] then none else some v
  | none => none

/-- One assignment step of `buildSubprocessEnv`:
`if (parentEnv[key]) env[key] = parentEnv[key]!`. -/
def envStep (parentEnv : Str → Option Str) (e : EnvRecord) (key : Str) : EnvRecord :=
  match envTruthy parentEnv key with
  | some v => recordSet e key v
  | none => e

/-- `buildSubprocessEnv(model, agentEnv, parentEnv)`: system essentials, then
the provider credential, then declared extra variables, each copied from the
source environment when truthy there. -/
def buildSubprocessEnv (model : Str) (agentEnv : Option Str)
    (parentEnv : Str → Option Str) : EnvRecord :=
  let e1 := SYSTEM_VARS.foldl (envStep parentEnv) []
  let e2 :=
    match providerCredential model with
    | some keyName => envStep parentEnv e1 keyName
    | none => e1
  (parseAgentEnvField agentEnv).foldl (envStep parentEnv) e2

/-- `describeEnv`: the keys of a built environment that are not system
essentials, in insertion order. -/
def describeEnv (env : EnvRecord) : List Str :=
  (recordKeys env).filter (fun k => ¬ SYSTEM_VARS.contains k)

theorem recordGet_envStep (parent : Str → Option Str) (e : EnvRecord) (key k : Str) :
    recordGet (envStep parent e key) k =
      if k = key ∧ (envTruthy parent k).isSome = true then envTruthy parent k
      else recordGet e k := by
  cases h : envTruthy parent key with
  | none =>
    simp only [envStep, h]
    by_cases hk : k = key
    · rw [if_neg (fun hh => by rw [hk, h] at hh; simp at hh)]
    · rw [if_neg (fun hh => hk hh.1)]
  | some v =>
    simp only [envStep, h]
    rw [recordGet_recordSet]
    by_cases hk : k = key
    · rw [if_pos hk, if_pos ⟨hk, by rw [hk, h]; rfl⟩, hk, h]
    · rw [if_neg hk, if_neg (fun hh => hk hh.1)]

theorem recordGet_foldl_envStep (parent : Str → Option Str) (keys : List Str)
    (e : EnvRecord) (k : Str) :
    recordGet (keys.foldl (envStep parent) e) k =
      if k ∈ keys ∧ (envTruthy parent k).isSome = true then envTruthy parent k
      else recordGet e k := by
  induction keys generalizing e with
  | nil => simp
  | cons key keys ih =>
    rw [List.foldl_cons, ih, recordGet_envStep]
    by_cases hs : (envTruthy parent k).isSome = true
    · by_cases hmem : k ∈ keys
      · rw [if_pos ⟨hmem, hs⟩, if_pos ⟨List.mem_cons_of_mem _ hmem, hs⟩]
      · rw [if_neg (fun h => hmem h.1)]
        by_cases hk : k = key
        · rw [if_pos ⟨hk, hs⟩, if_pos ⟨by rw [hk]; exact List.mem_cons_self _ _, hs⟩]
        · rw [if_neg (fun h => hk h.1), if_neg (fun h => by
            rcases List.mem_cons.mp h.1 with h1 | h1
            · exact hk h1
            · exact hmem h1)]
    · rw [if_neg (fun h => hs h.2), if_neg (fun h => hs h.2),
        if_neg (fun h => hs h.2)]

/-- Full characterization of `buildSubprocessEnv`: a key is bound exactly when
it is a system essential, the selected provider credential, or a declared
extra, and it is truthy in the source environment; its value is then the
source value. -/
theorem buildSubprocessEnv_get (model : Str) (agentEnv : Option Str)
    (parent : Str → Option Str) (k : Str) :
    recordGet (buildSubprocessEnv model agentEnv parent) k =
      if (k ∈ SYSTEM_VARS ∨ providerCredential model = some k ∨
          k ∈ parseAgentEnvField agentEnv) ∧ (envTruthy parent k).isSome = true
      then envTruthy parent k else none := by
  unfold buildSubprocessEnv
  rw [recordGet_foldl_envStep]
  by_cases hs : (envTruthy parent k).isSome = true
  · by_cases hx : k ∈ parseAgentEnvField agentEnv
    · rw [if_pos ⟨hx, hs⟩, if_pos ⟨Or.inr (Or.inr hx), hs⟩]
    · rw [if_neg (fun h => hx h.1)]
      cases hcred : providerCredential model with
      | some keyName =>
        simp only [hcred]
        rw [recordGet_envStep, recordGet_foldl_envStep]
        by_cases hk : k = keyName
        · rw [if_pos ⟨hk, hs⟩, if_pos ⟨Or.inr (Or.inl (by rw [hk])), hs⟩]
        · rw [if_neg (fun h => hk h.1)]
          by_cases ha : k ∈ SYSTEM_VARS
          · rw [if_pos ⟨ha, hs⟩, if_pos ⟨Or.inl ha, hs⟩]
          · rw [if_neg (fun h => ha h.1), recordGet_nil, if_neg (fun h => by
              rcases h.1 with h1 | h1 | h1
              · exact ha h1
              · exact hk (by injection h1 with h2; exact h2.symm)
              · exact hx h1)]
      | none =>
        simp only [hcred]
        rw [recordGet_foldl_envStep]
        by_cases ha : k ∈ SYSTEM_VARS
        · rw [if_pos ⟨ha, hs⟩, if_pos ⟨Or.inl ha, hs⟩]
        · rw [if_neg (fun h => ha h.1), recordGet_nil, if_neg (fun h => by
            rcases h.1 with h1 | h1 | h1
            · exact ha h1
            · exact Option.noConfusion h1
            · exact hx h1)]
  · rw [if_neg (fun h => hs h.2), if_neg (fun h => hs h.2)]
    cases hcred : providerCredential model with
    | some keyName =>
      simp only [hcred]
      rw [recordGet_envStep, if_neg (fun h => hs h.2), recordGet_foldl_envStep,
        if_neg (fun h => hs h.2), recordGet_nil]
    | none =>
      simp only [hcred]
      rw [recordGet_foldl_envStep, if_neg (fun h => hs h.2), recordGet_nil]

-- ── Spawn environments of the three topologies (claim C1) ──────────────

/-- Environment passed to `spawn` by the Dispatcher topology (`dispatchAgent`
in the agent-team extension): `env: { ...process.env }`, a full copy of the
parent process environment. -/
def dispatchSpawnEnv (processEnv : EnvRecord) : EnvRecord := processEnv

/-- Environment passed to `spawn` by the Pool topology (`spawnAgent` in the
subagent-widget extension): `env: { ...process.env }`, a full copy of the
parent process environment. -/
def poolSpawnEnv (processEnv : EnvRecord) : EnvRecord := processEnv

/-- Environment passed to `spawn` by the Pipeline topology (`runAgent` in
extensions/agent-chain.ts): `buildSubprocessEnv(model, agentDef.env)`.  The
loader's `AgentDef` interface has no `env` property, so `agentDef.env` is
always `undefined` at runtime. -/
def chainSpawnEnv (model : Str) (parentEnv : Str → Option Str) : EnvRecord :=
  buildSubprocessEnv model none parentEnv

/-- Concrete parent process environment holding credentials of two
providers. -/
def processEnv0 : EnvRecord :=
  [("PATH".data, "/bin".data), ("ANTHROPIC_API_KEY".data, "k1".data),
   ("OPENAI_API_KEY".data, "k2".data)]

/-- Concrete source environment holding credentials of two providers, for the
scenario given in the specification. -/
def parentBoth : Str → Option Str := fun k => recordGet processEnv0 k

/-- Concrete source environment in which PATH is present but empty. -/
def parentEmptyPath : Str → Option Str := fun k =>
  if k = "PATH".data then some [] else none

/-- C1 counterexample: the Dispatcher's `dispatchAgent` spawns with
`{ ...process.env }`; with model `anthropic/x` its spawn environment still
contains `OPENAI_API_KEY`, whereas the EnvironmentBuilder environment for the
same inputs does not — so the environment passed to spawn does not equal the
EnvironmentBuilder-produced one. -/
theorem C1_dispatch_env_counterexample :
    recordGet (dispatchSpawnEnv processEnv0) ("OPENAI_API_KEY".data) =
      some ("k2".data) ∧
    recordGet (buildSubprocessEnv ("anthropic/x".data) none parentBoth)
      ("OPENAI_API_KEY".data) = none := by
  constructor
  · decide
  · decide

/-- C1 (amended): only the Pipeline's `runAgent` passes the
EnvironmentBuilder-produced environment to `spawn`, and that environment never
contains a credential variable of a provider other than the selected model's;
the Dispatcher's `dispatchAgent` and the Pool's `spawnAgent` spawn with a full
copy of the parent process environment instead. -/
theorem C1_spawn_environments :
    (∀ p : EnvRecord, dispatchSpawnEnv p = p) ∧
    (∀ p : EnvRecord, poolSpawnEnv p = p) ∧
    (∀ (model : Str) (parent : Str → Option Str) (k : Str),
      k ∈ ALL_API_KEYS → providerCredential model ≠ some k →
      recordGet (chainSpawnEnv model parent) k = none) := by
  refine ⟨fun _ => rfl, fun _ => rfl, ?_⟩
  intro model parent k hk hcred
  unfold chainSpawnEnv
  rw [buildSubprocessEnv_get, if_neg]
  intro h
  rcases h.1 with h1 | h1 | h1
  · have hdisj : ∀ x ∈ ALL_API_KEYS, x ∉ SYSTEM_VARS := by decide
    exact hdisj k hk h1
  · exact hcred h1
  · simp [parseAgentEnvField] at h1

/-- Witness for C1_spawn_environments at a concrete model and environment. -/
theorem C1_spawn_environments_witness :
    recordGet (chainSpawnEnv ("anthropic/x".data) parentBoth)
      ("OPENAI_API_KEY".data) = none :=
  C1_spawn_environments.2.2 ("anthropic/x".data) parentBoth
    ("OPENAI_API_KEY".data) (by decide) (by decide)

/-- C2 counterexample: a system-essential variable that is present in the
source environment but bound to the empty string is dropped by
`buildSubprocessEnv`, though the claim requires every present system-essential
variable to be included. -/
theorem C2_present_empty_var_dropped :
    (parentEmptyPath ("PATH".data)).isSome = true ∧
    ("PATH".data ∈ SYSTEM_VARS) ∧
    recordGet (buildSubprocessEnv ("anthropic/x".data) none parentEmptyPath)
      ("PATH".data) = none := by
  refine ⟨by decide, by decide, by decide⟩

/-- C2 (amended): `buildSubprocessEnv` returns exactly the system-essential
variables present with a non-empty value in the source environment, plus the
single credential variable mapped from the model's provider token when that
provider is in the static table and the variable is present with a non-empty
value, plus declared extra variables present with a non-empty value; unknown
providers and identifiers without a separator yield no credential, and for
`anthropic/x` with both ANTHROPIC_API_KEY and OPENAI_API_KEY in the source
environment the result contains the former and never the latter. -/
theorem C2_buildSubprocessEnv_exact :
    (∀ (model : Str) (agentEnv : Option Str) (parent : Str → Option Str) (k : Str),
      recordGet (buildSubprocessEnv model agentEnv parent) k =
        if (k ∈ SYSTEM_VARS ∨ providerCredential model = some k ∨
            k ∈ parseAgentEnvField agentEnv) ∧ (envTruthy parent k).isSome = true
        then envTruthy parent k else none) ∧
    recordGet (buildSubprocessEnv ("anthropic/x".data) none parentBoth)
      ("ANTHROPIC_API_KEY".data) = some ("k1".data) ∧
    recordGet (buildSubprocessEnv ("anthropic/x".data) none parentBoth)
      ("OPENAI_API_KEY".data) = none ∧
    providerCredential ("mistral/x".data) = none ∧
    providerCredential ("anthropicx".data) = none :=
  ⟨buildSubprocessEnv_get, by decide, by decide, by decide, by decide⟩


-- ── A small regex engine for the fixed pattern lists of the sources ────

/-- Atom of the regular expressions appearing in `CREDENTIAL_PATTERNS` and
`SUSPICIOUS_PATTERNS`: a character, a character class, an optional character
class, a starred character class, an alternation of literal words, a word
boundary, and the `(?:^|[^x])` idiom (multiline beginning-of-line or one
class character). -/
inductive RAtom where
  | ch (c : Char)
  | cls (f : Char → Bool)
  | opt (f : Char → Bool)
  | star (f : Char → Bool)
  | alts (ws : List Str)
  | wb
  | bolOrCls (f : Char → Bool)

/-- A pattern: its atoms and whether the `i` flag is set. -/
structure RegexPat where
  atoms : List RAtom
  ci : Bool

/-- Character comparison, case-insensitive when `ci` (the JS `i` flag on
ASCII). -/
def chEq (ci : Bool) (a b : Char) : Bool :=
  if ci then a.toLower = b.toLower else a = b

/-- Consume a literal word from the input, tracking the previous character. -/
def eatWord (ci : Bool) : Str → Option Char → Str → Option (Option Char × Str)
  | [], prev, s => some (prev, s)
  | _ :: _, _, [] => none
  | c :: cs, _, x :: xs => if chEq ci c x then eatWord ci cs (some x) xs else none

/-- JS `\w`: ASCII letters, digits, underscore. -/
def isWordChar (c : Char) : Bool := c.isAlpha || c.isDigit || c = '_'

/-- JS `\b`: exactly one side of the position is a word character. -/
def atBoundary (prev : Option Char) (s : Str) : Bool :=
  let l := match prev with | some c => isWordChar c | none => false
  let r := match s with | c :: _ => isWordChar c | [] => false
  l != r

/-- Multiline `^`: start of input or right after a newline. -/
def atBol (prev : Option Char) : Bool :=
  match prev with | none => true | some c => c = '\n'

/-- Match a list of atoms at the current position (backtracking, existential
semantics).  The fuel strictly exceeds `atoms.length + s.length` at every
reachable call, and every step consumes either an atom or input, so the `0`
case is never reached from `searchFrom`. -/
def matchAtoms (ci : Bool) : Nat → List RAtom → Option Char → Str → Bool
  | 0, _, _, _ => false
  | _ + 1, [], _, _ => true
  | f + 1, a :: as, prev, s =>
    match a with
    | .ch c =>
      match s with
      | [] => false
      | x :: xs => chEq ci c x && matchAtoms ci f as (some x) xs
    | .cls g =>
      match s with
      | [] => false
      | x :: xs => g x && matchAtoms ci f as (some x) xs
    | .opt g =>
      (match s with
       | x :: xs => g x && matchAtoms ci f as (some x) xs
       | [] => false) || matchAtoms ci f as prev s
    | .star g =>
      matchAtoms ci f as prev s ||
      (match s with
       | x :: xs => g x && matchAtoms ci f (.star g :: as) (some x) xs
       | [] => false)
    | .alts ws =>
      ws.any (fun w =>
        match eatWord ci w prev s with
        | some pr => matchAtoms ci f as pr.1 pr.2
        | none => false)
    | .wb => atBoundary prev s && matchAtoms ci f as prev s
    | .bolOrCls g =>
      (atBol prev && matchAtoms ci f as prev s) ||
      (match s with
       | x :: xs => g x && matchAtoms ci f as (some x) xs
       | [] => false)

/-- Search for a match at any start position (JS `RegExp.prototype.test`). -/
def searchFrom (p : RegexPat) : Option Char → Str → Bool
  | prev, [] => matchAtoms p.ci (p.atoms.length + 1) p.atoms prev []
  | prev, c :: cs =>
    matchAtoms p.ci (p.atoms.length + (c :: cs).length + 1) p.atoms prev (c :: cs) ||
    searchFrom p (some c) cs

/-- JS `pattern.test(s)`. -/
def testPattern (p : RegexPat) (s : Str) : Bool := searchFrom p none s

/-- Atoms for a literal word. -/
def chs (w : Str) : List RAtom := w.map RAtom.ch

/-- The `[_ -]?` separator class of the credential patterns. -/
def sepCls : Char → Bool := fun c => c = '_' || c = ' ' || c = '-'

-- ── Credential failure patterns (`CREDENTIAL_PATTERNS`) ────────────────

/-- The eleven credential-failure signatures of subprocess-env.ts. -/
def CREDENTIAL_PATTERNS : List RegexPat :=
  [⟨[.wb] ++ chs ("401".data) ++ [.wb], true⟩,
   ⟨[.wb] ++ chs ("403".data) ++ [.wb], true⟩,
   ⟨chs ("unauthorized".data), true⟩,
   ⟨chs ("authentication failed".data), true⟩,
   ⟨chs ("api".data) ++ [.opt sepCls] ++ chs ("key".data) ++ [.opt sepCls] ++
      [.alts ["not".data, "missing".data, "invalid".data, "required".data]], true⟩,
   ⟨chs ("no api key".data), true⟩,
   ⟨chs ("access denied".data), true⟩,
   ⟨chs ("permission denied".data), true⟩,
   ⟨chs ("EACCES".data), false⟩,
   ⟨chs ("token".data) ++ [.opt sepCls] ++
      [.alts ["expired".data, "invalid".data, "missing".data, "required".data]], true⟩,
   ⟨chs ("credential".data) ++ [.opt (fun c => c.toLower = 's')] ++ [.opt sepCls] ++
      [.alts ["not".data, "missing".data, "invalid".data, "required".data]], true⟩]

/-- `CREDENTIAL_PATTERNS.some((p) => p.test(output))`. -/
def matchesCredentialPattern (output : Str) : Bool :=
  CREDENTIAL_PATTERNS.any (fun p => testPattern p output)

/-- The diagnostic message template of `detectCredentialFailure`. -/
def credentialDiagnostic (agentName : Str) (passedKeys : List Str) : Str :=
  let passedList :=
    if passedKeys.length > 0 then
      joinSep (", ".data)
        (passedKeys.map (fun k => [Char.ofNat 96] ++ k ++ [Char.ofNat 96]))
    else "no API keys".data
  "Subagent \"".data ++ agentName ++
    ("\" failed with what looks like a missing credential.\n".data ++
     "Only ".data ++ passedList ++ " ".data ++
     (if passedKeys.length = 1 then "was".data else "were".data) ++
     " passed to this subprocess.\n".data ++
     "If this agent needs additional env vars, add them to the \x60env\x60 field in its agent .md frontmatter:\n\n  env: NPM_TOKEN, GITHUB_TOKEN".data)

/-- `detectCredentialFailure(output, agentName, env)` from subprocess-env.ts:
no output or no matching signature gives `null`, otherwise the diagnostic
listing the non-system variables of the environment. -/
def detectCredentialFailure (output agentName : Str) (env : EnvRecord) : Option Str :=
  if output = [] then none
  else if matchesCredentialPattern output = true then
    some (credentialDiagnostic agentName (describeEnv env))
  else none

-- ── Substring lemmas ───────────────────────────────────────────────────

theorem isPrefixOf_append_self (n b : Str) : n.isPrefixOf (n ++ b) = true := by
  induction n with
  | nil => simp [List.isPrefixOf]
  | cons c cs ih => simp [List.isPrefixOf, ih]

theorem containsSub_here (n b : Str) : containsSub n (n ++ b) = true := by
  cases n with
  | nil => cases b <;> simp [containsSub, List.isPrefixOf]
  | cons c cs =>
    show containsSub (c :: cs) (c :: (cs ++ b)) = true
    rw [containsSub]
    rw [show (c :: (cs ++ b)) = (c :: cs) ++ b from rfl]
    rw [isPrefixOf_append_self, Bool.true_or]

theorem containsSub_append_left (n a h : Str) (hh : containsSub n h = true) :
    containsSub n (a ++ h) = true := by
  induction a with
  | nil => simpa using hh
  | cons c a ih =>
    show containsSub n (c :: (a ++ h)) = true
    rw [containsSub, ih, Bool.or_true]

theorem containsSub_diagnostic (name : Str) (keys : List Str) :
    containsSub name (credentialDiagnostic name keys) = true := by
  unfold credentialDiagnostic
  refine containsSub_append_left name ("Subagent \"".data) _ ?_
  exact containsSub_here name _


/-- C7: `detectCredentialFailure` returns a diagnostic exactly when the output
text is non-empty and matches at least one credential-failure signature; the
diagnostic is the fixed message naming the failed worker and listing exactly
the non-system variables (`describeEnv`) of the environment passed to that
worker.  Concretely, output "HTTP 401" with worker "w" and environment
{ANTHROPIC_API_KEY: "k"} yields a non-empty diagnostic mentioning "w" and
ANTHROPIC_API_KEY, while empty output and non-matching output yield none. -/
theorem C7_detectCredentialFailure_spec :
    (∀ (output name : Str) (env : EnvRecord),
      (detectCredentialFailure output name env).isSome = true ↔
        (output ≠ [] ∧ matchesCredentialPattern output = true)) ∧
    (∀ (output name : Str) (env : EnvRecord) (d : Str),
      detectCredentialFailure output name env = some d →
        d = credentialDiagnostic name (describeEnv env) ∧
        containsSub name d = true) ∧
    (∀ (env : EnvRecord) (k : Str),
      k ∈ describeEnv env ↔ (k ∈ recordKeys env ∧ ¬ k ∈ SYSTEM_VARS)) ∧
    ((detectCredentialFailure ("HTTP 401".data) ("w".data)
        [("ANTHROPIC_API_KEY".data, "k".data)]).isSome = true ∧
     containsSub ("w".data)
       ((detectCredentialFailure ("HTTP 401".data) ("w".data)
          [("ANTHROPIC_API_KEY".data, "k".data)]).getD []) = true ∧
     containsSub ("ANTHROPIC_API_KEY".data)
       ((detectCredentialFailure ("HTTP 401".data) ("w".data)
          [("ANTHROPIC_API_KEY".data, "k".data)]).getD []) = true) ∧
    detectCredentialFailure [] ("w".data)
      [("ANTHROPIC_API_KEY".data, "k".data)] = none ∧
    detectCredentialFailure ("hello world".data) ("w".data)
      [("ANTHROPIC_API_KEY".data, "k".data)] = none := by
  refine ⟨?_, ?_, ?_, ⟨by decide, by decide, by decide⟩, by decide, by decide⟩
  · intro output name env
    unfold detectCredentialFailure
    by_cases ho : output = []
    · simp [ho]
    · by_cases hm : matchesCredentialPattern output = true
      · simp [ho, hm]
      · simp [ho, hm]
  · intro output name env d h
    unfold detectCredentialFailure at h
    by_cases ho : output = []
    · rw [if_pos ho] at h
      exact Option.noConfusion h
    · rw [if_neg ho] at h
      by_cases hm : matchesCredentialPattern output = true
      · rw [if_pos hm] at h
        injection h with h
        subst h
        exact ⟨rfl, containsSub_diagnostic name (describeEnv env)⟩
      · rw [if_neg hm] at h
        exact Option.noConfusion h
  · intro env k
    simp [describeEnv, List.mem_filter, List.contains, List.elem_iff]

/-- Witness for C7_detectCredentialFailure_spec: the implication parts applied
at the specification's concrete input. -/
theorem C7_detectCredentialFailure_witness :
    ((detectCredentialFailure ("HTTP 401".data) ("w".data)
        [("ANTHROPIC_API_KEY".data, "k".data)]).isSome = true ↔
      (("HTTP 401".data ≠ ([] : Str)) ∧
        matchesCredentialPattern ("HTTP 401".data) = true)) ∧
    (detectCredentialFailure ("HTTP 401".data) ("w".data)
        [("ANTHROPIC_API_KEY".data, "k".data)] =
        some (credentialDiagnostic ("w".data)
          (describeEnv [("ANTHROPIC_API_KEY".data, "k".data)])) →
      credentialDiagnostic ("w".data)
          (describeEnv [("ANTHROPIC_API_KEY".data, "k".data)]) =
        credentialDiagnostic ("w".data)
          (describeEnv [("ANTHROPIC_API_KEY".data, "k".data)]) ∧
      containsSub ("w".data)
        (credentialDiagnostic ("w".data)
          (describeEnv [("ANTHROPIC_API_KEY".data, "k".data)])) = true) :=
  ⟨C7_detectCredentialFailure_spec.1 ("HTTP 401".data) ("w".data)
      [("ANTHROPIC_API_KEY".data, "k".data)],
   C7_detectCredentialFailure_spec.2.1 ("HTTP 401".data) ("w".data)
      [("ANTHROPIC_API_KEY".data, "k".data)] _⟩


-- ── extensions/utils/agent-loader.ts ───────────────────────────────────

/-- The backtick character. -/
def btick : Char := Char.ofNat 96

/-- The eight `SUSPICIOUS_PATTERNS` of agent-loader.ts with their reasons. -/
def SUSPICIOUS_PATTERNS : List (RegexPat × Str) :=
  [(⟨[.ch '$', .ch '(', .star (fun c => c ≠ '\n'), .ch ')'], false⟩,
    "contains shell command substitution $(...)".data),
   (⟨[.bolOrCls (fun c => c ≠ btick), .ch btick,
      .alts ["rm".data, "dd".data, "mkfs".data, "chmod".data, "chown".data,
             "kill".data, "curl".data, "wget".data, "sh".data, "bash".data,
             "eval".data],
      .cls jsWs, .star (fun c => c ≠ btick && c ≠ '\n'), .ch btick], false⟩,
    "contains backtick expression with shell command".data),
   (⟨[.ch (Char.ofNat 0)], false⟩, "contains null byte".data),
   (⟨[.ch '\\', .ch (Char.ofNat 39)], false⟩,
    "contains escaped single quote".data),
   (⟨[.ch ';', .star jsWs,
      .alts ["rm".data, "dd".data, "mkfs".data, "kill".data, "chmod".data,
             "chown".data],
      .cls jsWs], false⟩,
    "contains chained destructive shell command".data),
   (⟨[.ch '|', .star jsWs,
      .alts ["sh".data, "bash".data, "zsh".data, "dash".data], .wb], false⟩,
    "contains pipe to shell".data),
   (⟨[.ch '>', .star jsWs, .ch '/', .ch 'd', .ch 'e', .ch 'v', .ch '/'], false⟩,
    "contains redirect to /dev/".data),
   (⟨[.wb] ++ chs ("eval".data) ++ [.star jsWs, .ch '('], false⟩,
    "contains eval() call".data)]

/-- Finding severity. -/
inductive Severity where
  | error
  | warning
deriving DecidableEq

/-- A validation finding (`ValidationWarning`). -/
structure ValidationWarning where
  field : Str
  message : Str
  severity : Severity
deriving DecidableEq

/-- An agent definition (`AgentDef`). -/
structure AgentDef where
  name : Str
  description : Str
  tools : Str
  systemPrompt : Str
  file : Str
deriving DecidableEq

/-- The result of loading one persona file (`LoadResult`). -/
structure LoadResult where
  agent : Option AgentDef
  warnings : List ValidationWarning
deriving DecidableEq

/-- Hard cap on the instruction body length. -/
def MAX_SYSTEM_PROMPT_LENGTH : Nat := 50000

/-- Hard cap on the agent name length. -/
def MAX_NAME_LENGTH : Nat := 64

/-- The `KNOWN_TOOLS` allowlist. -/
def KNOWN_TOOLS : List Str :=
  ["read".data, "write".data, "edit".data, "bash".data, "grep".data,
   "find".data, "ls".data, "fetch".data, "firecrawl".data,
   "dispatch_agent".data, "run_chain".data, "query_experts".data,
   "tilldone".data, "subagent_create".data, "subagent_continue".data,
   "subagent_remove".data, "subagent_list".data]

/-- The `VALID_NAME_PATTERN` regex `^[a-zA-Z0-9][a-zA-Z0-9._-]*$`. -/
def validNameChars (name : Str) : Bool :=
  match name with
  | [] => false
  | c :: cs =>
    (c.isAlpha || c.isDigit) &&
    cs.all (fun d => d.isAlpha || d.isDigit || d = '.' || d = '_' || d = '-')

/-- `validateName` from agent-loader.ts. -/
def validateName (name : Str) : List ValidationWarning :=
  if name = [] then
    [⟨"name".data, "agent name is empty".data, .error⟩]
  else
    (if name.length > MAX_NAME_LENGTH then
      [⟨"name".data,
        "agent name exceeds ".data ++ natStr MAX_NAME_LENGTH ++
          " characters (got ".data ++ natStr name.length ++ ")".data, .error⟩]
     else []) ++
    (if validNameChars name = false then
      [⟨"name".data,
        "agent name \"".data ++ name ++
          "\" contains invalid characters (allowed: a-z, 0-9, dash, underscore, dot)".data,
        .error⟩]
     else [])

/-- `validateTools` from agent-loader.ts: unknown tools produce
warning-severity findings. -/
def validateTools (tools : Str) : List ValidationWarning :=
  if tools = [] then []
  else
    (((splitPred (fun c => c = ',') tools).map jsTrim).filter
        (fun t => t ≠ [])).filterMap
      (fun tool =>
        if KNOWN_TOOLS.contains tool then none
        else some ⟨"tools".data,
          "unknown tool \"".data ++ tool ++
            "\" — not in the known tools allowlist".data,
          .warning⟩)

/-- `validateSystemPrompt` from agent-loader.ts: oversize is an error, each
matching suspicious pattern a warning. -/
def validateSystemPrompt (body : Str) : List ValidationWarning :=
  (if body.length > MAX_SYSTEM_PROMPT_LENGTH then
    [⟨"systemPrompt".data,
      "system prompt exceeds ".data ++ natStr MAX_SYSTEM_PROMPT_LENGTH ++
        " characters (got ".data ++ natStr body.length ++ ")".data, .error⟩]
   else []) ++
  SUSPICIOUS_PATTERNS.filterMap (fun pr =>
    if testPattern pr.1 body then
      some ⟨"systemPrompt".data,
        "suspicious content in system prompt: ".data ++ pr.2, .warning⟩
    else none)

/-- `validateAgent` from agent-loader.ts. -/
def validateAgent (agent : AgentDef) : List ValidationWarning :=
  validateName agent.name ++ validateTools agent.tools ++
    validateSystemPrompt agent.systemPrompt

-- ── Frontmatter parser ─────────────────────────────────────────────────

/-- Result of `parseFrontmatter`. -/
structure ParsedFile where
  fields : EnvRecord
  body : Str
deriving DecidableEq

/-- Consume a whitespace run and return the text after its last newline
(greedy `\s*\n` of the frontmatter regex); `none` if no newline is reachable
through whitespace. -/
def afterOpenWsAux : Str → Option Str → Option Str
  | [], best => best
  | c :: cs, best =>
    if c = '\n' then afterOpenWsAux cs (some cs)
    else if jsWs c then afterOpenWsAux cs best
    else best

/-- Entry point of the greedy `\s*\n` step. -/
def afterOpenWs (s : Str) : Option Str := afterOpenWsAux s none

/-- Find the closing `\n---\s*\n` separator (the lazy `([\s\S]*?)` group takes
the first position where the rest matches), returning the text before it and
the remaining body. -/
def findSep : Str → Option (Str × Str)
  | [] => none
  | c :: cs =>
    if c = '\n' ∧ ("---".data).isPrefixOf cs then
      match afterOpenWs (cs.drop 3) with
      | some rest => some ([], rest)
      | none => (findSep cs).map (fun pr => (c :: pr.1, pr.2))
    else (findSep cs).map (fun pr => (c :: pr.1, pr.2))

/-- Field parsing of `parseFrontmatter`: split the frontmatter block on
newlines; each line with a colon at a positive index contributes a trimmed
key/value binding (later duplicates overwrite). -/
def parseFields (g1 : Str) : EnvRecord :=
  (splitNl g1).foldl
    (fun acc line =>
      let idx := (line.takeWhile (fun c => c ≠ ':')).length
      if 0 < idx ∧ idx < line.length then
        recordSet acc (jsTrim (line.take idx)) (jsTrim (line.drop (idx + 1)))
      else acc)
    []

/-- `parseFrontmatter` from agent-loader.ts
(`/^---\s*\n([\s\S]*?)\n---\s*\n([\s\S]*)$/`). -/
def parseFrontmatter (raw : Str) : Option ParsedFile :=
  if ("---".data).isPrefixOf raw then
    match afterOpenWs (raw.drop 3) with
    | some afterOpen =>
      match findSep afterOpen with
      | some pr => some ⟨parseFields pr.1, pr.2⟩
      | none => none
    | none => none
  else none

/-- Last path segment (`basename`). -/
def lastSegment (s : Str) : Str := (splitPred (fun c => c = '/') s).getLastD []

/-- Node `basename(filePath, ".md")`. -/
def basenameMd (filePath : Str) : Str :=
  let seg := lastSegment filePath
  if seg ≠ ".md".data ∧ (".md".data).isSuffixOf seg then
    seg.take (seg.length - 3)
  else seg

/-- `loadAgentFile` from agent-loader.ts.  The external `readFileSync` is
modelled by the `content` argument (`.error` for an unreadable file).  The
frontmatter defaults use JS falsiness: a missing or empty `name` falls back to
the basename, missing or empty `tools` to `read,grep,find,ls`, a missing
`description` to the empty string. -/
def loadAgentFile (content : Except Str Str) (filePath : Str) : LoadResult :=
  match content with
  | .error e =>
    ⟨none, [⟨"file".data, "could not read file: ".data ++ e, .error⟩]⟩
  | .ok raw =>
    match parseFrontmatter raw with
    | none =>
      ⟨none, [⟨"file".data,
        "file does not have valid frontmatter (---\\n...\\n---)".data,
        .error⟩]⟩
    | some parsed =>
      let name :=
        match recordGet parsed.fields ("name".data) with
        | some v => if v = [] then basenameMd filePath else v
        | none => basenameMd filePath
      let description :=
        match recordGet parsed.fields ("description".data) with
        | some v => v
        | none => []
      let tools :=
        match recordGet parsed.fields ("tools".data) with
        | some v => if v = [] then "read,grep,find,ls".data else v
        | none => "read,grep,find,ls".data
      let agent : AgentDef :=
        ⟨name, description, tools, jsTrim parsed.body, filePath⟩
      let warnings := validateAgent agent
      ⟨if warnings.any (fun w => decide (w.severity = Severity.error)) = true
        then none else some agent, warnings⟩

/-- One iteration of the `scanAgentDirectory` loop: skip non-`.md` files, log
every warning through the caller's callback, and keep the first valid agent
per lowercase name. -/
def scanStep (acc : List (Str × ValidationWarning) × List (Str × AgentDef))
    (file : Str × Except Str Str) :
    List (Str × ValidationWarning) × List (Str × AgentDef) :=
  if (".md".data).isSuffixOf file.1 then
    let result := loadAgentFile file.2 file.1
    let log := acc.1 ++ result.warnings.map (fun w => (file.1, w))
    match result.agent with
    | some a =>
      let key := a.name.map Char.toLower
      if acc.2.any (fun p => decide (p.1 = key)) then (log, acc.2)
      else (log, acc.2 ++ [(key, a)])
    | none => (log, acc.2)
  else acc

/-- `scanAgentDirectory` from agent-loader.ts, over an explicit directory
listing (file name and read outcome).  Returns the sequence of callback
invocations and the map of loaded agents. -/
def scanAgentDirectory (listing : List (Str × Except Str Str)) :
    List (Str × ValidationWarning) × List (Str × AgentDef) :=
  listing.foldl scanStep ([], [])

/-- The concrete persona file of the specification scenario whose body quotes
a destructive shell command in backticks. -/
def rawRmRf : Str :=
  ("---\nname: scout\n---\nUse \x60rm -rf /\x60 when needed").data

/-- A frontmatter-only persona file without name, tools or description. -/
def rawFrontmatterOnly : Str := "---\nx: 1\n---\n".data

theorem scanStep_fst (acc : List (Str × ValidationWarning) × List (Str × AgentDef))
    (file : Str × Except Str Str) :
    (scanStep acc file).1 = acc.1 ++
      (if (".md".data).isSuffixOf file.1 then
        (loadAgentFile file.2 file.1).warnings.map (fun w => (file.1, w))
      else []) := by
  unfold scanStep
  by_cases hmd : (".md".data).isSuffixOf file.1
  · simp only [hmd, if_true]
    cases (loadAgentFile file.2 file.1).agent with
    | none => rfl
    | some a =>
      by_cases hdup : acc.2.any
          (fun p => decide (p.1 = a.name.map Char.toLower)) = true
      · simp [hdup]
      · simp [hdup]
  · simp [hmd]

theorem scan_fst_aux (listing : List (Str × Except Str Str))
    (acc : List (Str × ValidationWarning) × List (Str × AgentDef)) :
    (listing.foldl scanStep acc).1 = acc.1 ++
      (listing.filter (fun f => (".md".data).isSuffixOf f.1)).flatMap
        (fun f => (loadAgentFile f.2 f.1).warnings.map (fun w => (f.1, w))) := by
  induction listing generalizing acc with
  | nil => simp
  | cons f fs ih =>
    rw [List.foldl_cons, ih]
    by_cases hmd : (".md".data).isSuffixOf f.1
    · rw [scanStep_fst]
      simp [hmd, List.filter_cons, List.append_assoc]
    · rw [scanStep_fst]
      simp [hmd, List.filter_cons]


/-- C6: the loader returns no definition exactly when some validation finding
has error severity (unreadable file, missing frontmatter, invalid name,
overlong body are the error producers); unknown tools and suspicious body
patterns are warning-severity only, so the definition is still returned — in
particular a persona whose body contains a backtick-wrapped `rm -rf /` is
returned together with a warning on the instruction body; and every finding of
every scanned file is delivered to the caller-supplied callback. -/
theorem C6_loader_error_findings :
    (∀ (content : Except Str Str) (path : Str),
      ((loadAgentFile content path).agent = none ↔
        (loadAgentFile content path).warnings.any
          (fun w => decide (w.severity = Severity.error)) = true)) ∧
    (∀ tools : Str,
      (validateTools tools).all
        (fun w => decide (w.severity = Severity.warning)) = true) ∧
    (∀ body : Str, body.length ≤ MAX_SYSTEM_PROMPT_LENGTH →
      (validateSystemPrompt body).all
        (fun w => decide (w.severity = Severity.warning)) = true) ∧
    (∀ listing : List (Str × Except Str Str),
      (scanAgentDirectory listing).1 =
        (listing.filter (fun f => (".md".data).isSuffixOf f.1)).flatMap
          (fun f => (loadAgentFile f.2 f.1).warnings.map (fun w => (f.1, w)))) ∧
    ((loadAgentFile (.ok rawRmRf) ("scout.md".data)).agent.isSome = true ∧
     (loadAgentFile (.ok rawRmRf) ("scout.md".data)).warnings.any
        (fun w => decide (w.field = "systemPrompt".data ∧
          w.severity = Severity.warning)) = true) := by
  refine ⟨?_, ?_, ?_, fun listing => scan_fst_aux listing ([], []), ?_, ?_⟩
  · intro content path
    cases content with
    | error e => simp [loadAgentFile]
    | ok raw =>
      cases hp : parseFrontmatter raw with
      | none => simp [loadAgentFile, hp]
      | some parsed =>
        simp only [loadAgentFile, hp]
        by_cases he :
            (validateAgent
              ⟨match recordGet parsed.fields ("name".data) with
               | some v => if v = [] then basenameMd path else v
               | none => basenameMd path,
               match recordGet parsed.fields ("description".data) with
               | some v => v
               | none => [],
               match recordGet parsed.fields ("tools".data) with
               | some v => if v = [] then "read,grep,find,ls".data else v
               | none => "read,grep,find,ls".data,
               jsTrim parsed.body, path⟩).any
              (fun w => decide (w.severity = Severity.error)) = true
        · simp [he]
        · simp [he]
  · intro tools
    unfold validateTools
    by_cases h0 : tools = []
    · simp [h0]
    · rw [if_neg h0, List.all_eq_true]
      intro w hw
      rw [List.mem_filterMap] at hw
      obtain ⟨tool, _, htool⟩ := hw
      by_cases hk : KNOWN_TOOLS.contains tool = true
      · rw [if_pos hk] at htool
        exact Option.noConfusion htool
      · rw [if_neg hk] at htool
        injection htool with htool
        subst htool
        rfl
  · intro body hlen
    unfold validateSystemPrompt
    rw [if_neg (by omega), List.nil_append, List.all_eq_true]
    intro w hw
    rw [List.mem_filterMap] at hw
    obtain ⟨pr, _, hpr⟩ := hw
    by_cases ht : testPattern pr.1 body = true
    · rw [if_pos ht] at hpr
      injection hpr with hpr
      subst hpr
      rfl
    · rw [if_neg ht] at hpr
      exact Option.noConfusion hpr
  · decide
  · decide

/-- Witness for C6_loader_error_findings: the body-length hypothesis of the
warning-only part discharged at the scenario body. -/
theorem C6_loader_error_findings_witness :
    (validateSystemPrompt ("Use \x60rm -rf /\x60 when needed".data)).all
      (fun w => decide (w.severity = Severity.warning)) = true :=
  C6_loader_error_findings.2.2.1 ("Use \x60rm -rf /\x60 when needed".data)
    (by decide)

/-- C10: when a persona file parses but its frontmatter omits (or empties)
fields, the loader substitutes defaults in the returned definition: a missing
name becomes the basename of the file without the `.md` extension, missing
tools become the `read,grep,find,ls` allowlist, and a missing description
becomes the empty string; a frontmatter-only file is returned fully populated
rather than rejected. -/
theorem C10_loader_defaults :
    (∀ (raw path : Str) (parsed : ParsedFile) (a : AgentDef),
      parseFrontmatter raw = some parsed →
      (loadAgentFile (.ok raw) path).agent = some a →
      ((recordGet parsed.fields ("name".data) = none ∨
        recordGet parsed.fields ("name".data) = some []) →
        a.name = basenameMd path) ∧
      ((recordGet parsed.fields ("tools".data) = none ∨
        recordGet parsed.fields ("tools".data) = some []) →
        a.tools = "read,grep,find,ls".data) ∧
      (recordGet parsed.fields ("description".data) = none →
        a.description = [])) ∧
    (loadAgentFile (.ok rawFrontmatterOnly) ("dir/scout.md".data)).agent =
      some ⟨"scout".data, [], "read,grep,find,ls".data, [],
            "dir/scout.md".data⟩ := by
  constructor
  · intro raw path parsed a hp ha
    simp only [loadAgentFile, hp] at ha
    by_cases he :
        (validateAgent
          ⟨match recordGet parsed.fields ("name".data) with
           | some v => if v = [] then basenameMd path else v
           | none => basenameMd path,
           match recordGet parsed.fields ("description".data) with
           | some v => v
           | none => [],
           match recordGet parsed.fields ("tools".data) with
           | some v => if v = [] then "read,grep,find,ls".data else v
           | none => "read,grep,find,ls".data,
           jsTrim parsed.body, path⟩).any
          (fun w => decide (w.severity = Severity.error)) = true
    · rw [if_pos he] at ha
      exact Option.noConfusion ha
    · rw [if_neg he] at ha
      injection ha with ha
      subst ha
      refine ⟨?_, ?_, ?_⟩
      · intro hname
        rcases hname with h | h <;> simp [h]
      · intro htools
        rcases htools with h | h <;> simp [h]
      · intro hdesc
        simp [hdesc]
  · decide

/-- Witness for C10_loader_defaults: the general defaults statement applied to
the frontmatter-only file. -/
theorem C10_loader_defaults_witness :
    AgentDef.name ⟨"scout".data, [], "read,grep,find,ls".data, [],
        "dir/scout.md".data⟩ =
      basenameMd ("dir/scout.md".data) :=
  ((C10_loader_defaults.1 rawFrontmatterOnly ("dir/scout.md".data)
      ⟨[("x".data, "1".data)], []⟩
      ⟨"scout".data, [], "read,grep,find,ls".data, [], "dir/scout.md".data⟩
      (by decide) (by decide)).1 (Or.inl (by decide)))


-- ── Streaming event parser of dispatchAgent (agent-team.ts) ────────────

theorem splitPred_nil (p : Char → Bool) : splitPred p [] = [[]] := rfl

theorem splitPred_cons (p : Char → Bool) (a : Char) (t : Str) :
    splitPred p (a :: t) =
      if p a then [] :: splitPred p t
      else (splitPred p t).modifyHead (a :: ·) := rfl

theorem modifyHead_cons (f : Str → Str) (x : Str) (l : List Str) :
    (x :: l).modifyHead f = f x :: l := rfl

theorem splitPred_ne_nil (p : Char → Bool) (s : Str) : splitPred p s ≠ [] := by
  induction s with
  | nil => simp [splitPred_nil]
  | cons c cs ih =>
    rw [splitPred_cons]
    by_cases h : p c
    · simp [h]
    · cases hS : splitPred p cs with
      | nil => exact absurd hS ih
      | cons s0 rest => simp [h, hS, modifyHead_cons]

theorem modifyHead_id_append (l : List Str) :
    l.modifyHead (fun x => [] ++ x) = l := by
  cases l <;> simp [List.modifyHead]

theorem modifyHead_ne_nil (f : Str → Str) (l : List Str) (h : l ≠ []) :
    l.modifyHead f ≠ [] := by
  cases l with
  | nil => exact absurd rfl h
  | cons a l => simp [modifyHead_cons]

theorem dropLast_cons2 (x y : Str) (l : List Str) :
    (x :: y :: l).dropLast = x :: (y :: l).dropLast := rfl

theorem getLastD_cons' (a : Str) (l : List Str) (d : Str) :
    (a :: l).getLastD d = l.getLastD a := by
  cases l <;> simp [List.getLastD]

theorem getLastD_append_right (X Q : List Str) (hQ : Q ≠ []) (d : Str) :
    (X ++ Q).getLastD d = Q.getLastD d := by
  induction X generalizing d with
  | nil => rfl
  | cons a X ih =>
    cases Q with
    | nil => exact absurd rfl hQ
    | cons q Q =>
      rw [List.cons_append, getLastD_cons', ih, getLastD_cons', getLastD_cons']

theorem dropLast_append_right (X Q : List Str) (hQ : Q ≠ []) :
    (X ++ Q).dropLast = X ++ Q.dropLast := by
  induction X with
  | nil => rfl
  | cons a X ih =>
    cases hXQ : X ++ Q with
    | nil =>
      rcases List.append_eq_nil.mp hXQ with ⟨_, h2⟩
      exact absurd h2 hQ
    | cons b l =>
      rw [List.cons_append, hXQ, dropLast_cons2, ← hXQ, ih, List.cons_append]

theorem splitPred_all_not (p : Char → Bool) (s : Str) :
    ∀ x ∈ splitPred p s, ∀ c ∈ x, p c = false := by
  induction s with
  | nil =>
    intro x hx
    rw [splitPred_nil] at hx
    rcases List.mem_singleton.mp hx with rfl
    intro c hc
    exact absurd hc (List.not_mem_nil c)
  | cons a s ih =>
    intro x hx
    rw [splitPred_cons] at hx
    by_cases h : p a
    · rw [if_pos h] at hx
      rcases List.mem_cons.mp hx with hx | hx
      · subst hx
        intro c hc
        exact absurd hc (List.not_mem_nil c)
      · exact ih x hx
    · rw [if_neg h] at hx
      cases hS : splitPred p s with
      | nil => exact absurd hS (splitPred_ne_nil p s)
      | cons s0 rest =>
        rw [hS, modifyHead_cons] at hx
        rcases List.mem_cons.mp hx with hx | hx
        · subst hx
          intro c hc
          rcases List.mem_cons.mp hc with hc | hc
          · subst hc
            exact eq_false_of_ne_true (by simpa using h)
          · exact ih s0 (by rw [hS]; exact List.mem_cons_self s0 rest) c hc
        · exact ih x (by rw [hS]; exact List.mem_cons_of_mem s0 hx)

theorem getLastD_mem (l : List Str) (h : l ≠ []) (d : Str) : l.getLastD d ∈ l := by
  induction l generalizing d with
  | nil => exact absurd rfl h
  | cons a l ih =>
    cases l with
    | nil => simp [List.getLastD]
    | cons b l =>
      rw [getLastD_cons']
      exact List.mem_cons_of_mem a (ih (by simp) a)

theorem splitPred_no_sep (p : Char → Bool) (s : Str)
    (h : ∀ c ∈ s, p c = false) : splitPred p s = [s] := by
  induction s with
  | nil => rfl
  | cons a s ih =>
    have ha : p a = false := h a (List.mem_cons_self a s)
    rw [splitPred_cons, if_neg (by simp [ha]),
      ih (fun c hc => h c (List.mem_cons_of_mem a hc)), modifyHead_cons]

theorem splitPred_append (p : Char → Bool) (xs ys : Str) :
    splitPred p (xs ++ ys) =
      (splitPred p xs).dropLast ++
        (splitPred p ys).modifyHead
          (fun l => (splitPred p xs).getLastD [] ++ l) := by
  induction xs with
  | nil =>
    rw [List.nil_append, splitPred_nil,
      show ([[]] : List Str).dropLast = [] from rfl, List.nil_append,
      show ([[]] : List Str).getLastD [] = [] from rfl]
    exact (modifyHead_id_append (splitPred p ys)).symm
  | cons a xs ih =>
    cases hS : splitPred p xs with
    | nil => exact absurd hS (splitPred_ne_nil p xs)
    | cons s0 rest =>
      by_cases h : p a
      · rw [List.cons_append, splitPred_cons, if_pos h, ih, splitPred_cons,
          if_pos h, hS, dropLast_cons2, List.cons_append]
        simp only [getLastD_cons']
      · rw [List.cons_append, splitPred_cons, if_neg h, ih, splitPred_cons,
          if_neg h, hS, modifyHead_cons]
        cases rest with
        | nil =>
          cases hY : splitPred p ys with
          | nil => exact absurd hY (splitPred_ne_nil p ys)
          | cons y0 yr =>
            rw [show ([s0] : List Str).dropLast = [] from rfl, List.nil_append,
              show ([s0] : List Str).getLastD [] = s0 from rfl,
              modifyHead_cons, modifyHead_cons,
              show ([a :: s0] : List Str).dropLast = [] from rfl,
              List.nil_append,
              show ([a :: s0] : List Str).getLastD [] = a :: s0 from rfl,
              modifyHead_cons, List.cons_append]
        | cons s1 rest2 =>
          rw [dropLast_cons2, dropLast_cons2, getLastD_cons', getLastD_cons',
            List.cons_append, modifyHead_cons, List.cons_append,
            getLastD_cons', getLastD_cons']

-- ── The stream model itself ────────────────────────────────────────────

/-- A decoded structured event as far as the stream loop inspects it:
`event.type`, `event.assistantMessageEvent?.type` and
`event.assistantMessageEvent?.delta`. -/
structure SEvent where
  typ : Str
  deltaType : Option Str
  delta : Option Str

/-- The text extracted from one decoded event by the stream loop:
`if (event.type === "message_update")` and the assistant event is a
`text_delta`, push `delta.delta || ""`. -/
def eventTextDelta (e : SEvent) : Option Str :=
  if e.typ = "message_update".data then
    match e.deltaType with
    | some dt => if dt = "text_delta".data then some (e.delta.getD []) else none
    | none => none
  else none

/-- What one line contributes to `textChunks`: blank lines are skipped
(`if (!line.trim()) continue`), then the line is decoded (`JSON.parse` is the
abstract `parse`; a parse failure is `none` — the `catch {}`), and only
`message_update`/`text_delta` events contribute. -/
def lineDelta (parse : Str → Option SEvent) (line : Str) : Option Str :=
  if jsTrim line = [] then none
  else
    match parse line with
    | some e => eventTextDelta e
    | none => none

/-- The mutable state of the stdout handler: the partial-line `buffer` and the
accumulated `textChunks`. -/
structure StreamState where
  buffer : Str
  chunks : List Str

/-- One `data` callback of the stdout stream: append the chunk to the buffer,
split on newlines, keep the final fragment as the new buffer
(`buffer = lines.pop() || ""`), and process every complete line. -/
def feedChunk (parse : Str → Option SEvent) (st : StreamState) (chunk : Str) :
    StreamState :=
  let parts := splitNl (st.buffer ++ chunk)
  ⟨parts.getLastD [], st.chunks ++ parts.dropLast.filterMap (lineDelta parse)⟩

/-- The `close` handler's final decode of the retained fragment
(`if (buffer.trim()) { try { ... } catch {} }`) followed by joining
`textChunks`. -/
def closeFlush (parse : Str → Option SEvent) (st : StreamState) : List Str :=
  st.chunks ++ (lineDelta parse st.buffer).toList

/-- The accumulated output of a run of the stream loop over a chunk
sequence. -/
def streamRun (parse : Str → Option SEvent) (chunksIn : List Str) : Str :=
  (closeFlush parse (chunksIn.foldl (feedChunk parse) ⟨[], []⟩)).flatten

/-- The chunking-independent specification: deltas of all newline-terminated
lines of the whole byte stream, then the final unterminated fragment decoded
once. -/
def streamSpec (parse : Str → Option SEvent) (stream : Str) : Str :=
  ((splitNl stream).dropLast.filterMap (lineDelta parse) ++
    (lineDelta parse ((splitNl stream).getLastD [])).toList).flatten

theorem feedChunk_append (parse : Str → Option SEvent) (st : StreamState)
    (a b : Str) :
    feedChunk parse (feedChunk parse st a) b = feedChunk parse st (a ++ b) := by
  simp only [feedChunk, splitNl]
  have hPne : splitPred (fun c => c = '\n') (st.buffer ++ a) ≠ [] :=
    splitPred_ne_nil _ _
  have hgP : ∀ c ∈ (splitPred (fun c => c = '\n') (st.buffer ++ a)).getLastD [],
      (fun c => decide (c = '\n')) c = false :=
    fun c hc => splitPred_all_not _ _ _ (getLastD_mem _ hPne []) c hc
  have hQ : splitPred (fun c => c = '\n')
        ((splitPred (fun c => c = '\n') (st.buffer ++ a)).getLastD [] ++ b) =
      (splitPred (fun c => c = '\n') b).modifyHead
        (fun l =>
          (splitPred (fun c => c = '\n') (st.buffer ++ a)).getLastD [] ++ l) := by
    rw [splitPred_append, splitPred_no_sep _ _ hgP]
    rfl
  have hR : splitPred (fun c => c = '\n') (st.buffer ++ (a ++ b)) =
      (splitPred (fun c => c = '\n') (st.buffer ++ a)).dropLast ++
        (splitPred (fun c => c = '\n') b).modifyHead
          (fun l =>
            (splitPred (fun c => c = '\n') (st.buffer ++ a)).getLastD [] ++ l) := by
    rw [← List.append_assoc, splitPred_append]
  have hMne : (splitPred (fun c => c = '\n') b).modifyHead
      (fun l =>
        (splitPred (fun c => c = '\n') (st.buffer ++ a)).getLastD [] ++ l) ≠ [] :=
    modifyHead_ne_nil _ _ (splitPred_ne_nil _ _)
  rw [hQ, hR, getLastD_append_right _ _ hMne, dropLast_append_right _ _ hMne,
    List.filterMap_append, List.append_assoc]

theorem foldl_feedChunk (parse : Str → Option SEvent) :
    ∀ (cs : List Str) (st : StreamState) (c : Str),
      List.foldl (feedChunk parse) st (c :: cs) =
        feedChunk parse st (c :: cs).flatten := by
  intro cs
  induction cs with
  | nil =>
    intro st c
    simp [List.flatten]
  | cons d cs ih =>
    intro st c
    rw [List.foldl_cons, ih, feedChunk_append,
      show (c :: d :: cs).flatten = c ++ (d :: cs).flatten from rfl]

/-- C5: the accumulated output of the streaming parser depends only on the
byte content of stdout, not on how the stream is split into chunks: for every
chunking it equals the concatenation of the text deltas of all
newline-terminated lines of the whole stream (lines that do not decode
contribute nothing and do not abort later lines), plus the trailing
unterminated fragment decoded once more at process exit. -/
theorem C5_streaming_chunk_invariance :
    ∀ (parse : Str → Option SEvent) (chunksIn : List Str),
      streamRun parse chunksIn = streamSpec parse chunksIn.flatten := by
  intro parse chunksIn
  cases chunksIn with
  | nil => rfl
  | cons c cs =>
    rw [streamRun, foldl_feedChunk]
    simp only [feedChunk, closeFlush, streamSpec, List.nil_append]


-- ── Template substitution of runChain (agent-chain.ts) ─────────────────

/-- The `$INPUT` placeholder (`/\$INPUT/g`, a literal pattern). -/
def sINPUT : Str := "$INPUT".data

/-- The `$ORIGINAL` placeholder (`/\$ORIGINAL/g`, a literal pattern). -/
def sORIGINAL : Str := "$ORIGINAL".data

/-- JS `GetSubstitution` for a replacement string with no capture groups:
`$$` is a dollar, `$&` the matched text, a dollar-backtick the text before the
match, a dollar-apostrophe the text after it; everything else is literal. -/
def expandRep (whole : Str) (idx : Nat) (matched : Str) : Str → Str
  | [] => []
  | c :: rest =>
    if c = '$' then
      match rest with
      | [] => ['$']
      | d :: rest2 =>
        if d = '$' then '$' :: expandRep whole idx matched rest2
        else if d = '&' then matched ++ expandRep whole idx matched rest2
        else if d = btick then
          whole.take idx ++ expandRep whole idx matched rest2
        else if d = Char.ofNat 39 then
          whole.drop (idx + matched.length) ++ expandRep whole idx matched rest2
        else '$' :: d :: expandRep whole idx matched rest2
    else c :: expandRep whole idx matched rest

/-- The scan of `String.prototype.replace` with a global literal pattern:
non-overlapping left-to-right matches, each replaced by the expanded
replacement; fuelled by the remaining length (every step consumes at least one
character). -/
def jsRepGo (pat rep whole : Str) : Nat → Nat → Str → Str
  | 0, _, s => s
  | f + 1, idx, s =>
    match s with
    | [] => []
    | c :: cs =>
      if pat ≠ [] ∧ pat.isPrefixOf (c :: cs) then
        expandRep whole idx pat rep ++
          jsRepGo pat rep whole f (idx + pat.length) (List.drop pat.length (c :: cs))
      else c :: jsRepGo pat rep whole f (idx + 1) cs

/-- JS `s.replace(/pat/g, rep)` for a literal pattern. -/
def jsReplaceAll (pat rep s : Str) : Str := jsRepGo pat rep s s.length 0 s

/-- The prompt sent to a pipeline step (`runChain`):
`step.prompt.replace(/\$INPUT/g, input).replace(/\$ORIGINAL/g, originalPrompt)`. -/
def resolvedPrompt (template input orig : Str) : Str :=
  jsReplaceAll sORIGINAL orig (jsReplaceAll sINPUT input template)

/-- Modelled from the claim's words: simultaneous, verbatim replacement of
every `$INPUT` occurrence by the previous output and every `$ORIGINAL`
occurrence by the task text (fuelled scan). -/
def claimedSubstGo (input orig : Str) : Nat → Str → Str
  | 0, s => s
  | f + 1, s =>
    match s with
    | [] => []
    | c :: cs =>
      if sINPUT.isPrefixOf (c :: cs) then
        input ++ claimedSubstGo input orig f (List.drop sINPUT.length (c :: cs))
      else if sORIGINAL.isPrefixOf (c :: cs) then
        orig ++ claimedSubstGo input orig f (List.drop sORIGINAL.length (c :: cs))
      else c :: claimedSubstGo input orig f cs

/-- Modelled from the claim's words: entry point of the simultaneous verbatim
substitution. -/
def claimedSimultaneousSubst (template input orig : Str) : Str :=
  claimedSubstGo input orig template.length template

/-- Every dollar sign of the template begins one of the two placeholders. -/
def dollarsOk : Str → Bool
  | [] => true
  | c :: cs =>
    (if c = '$' then
      ("INPUT".data).isPrefixOf cs || ("ORIGINAL".data).isPrefixOf cs
     else true) && dollarsOk cs

/-- C8 counterexample: the substitution is not verbatim for every character
sequence.  A previous output consisting of the text `$ORIGINAL` is itself
replaced by the task text by the second `replace`, and JS dollar escapes in a
substituted text are interpreted (`$$` collapses to `$`), so the produced
prompt differs from the claim's verbatim substitution. -/
theorem C8_substitution_counterexample :
    resolvedPrompt ("$INPUT".data) ("$ORIGINAL".data) ("T".data) = "T".data ∧
    claimedSimultaneousSubst ("$INPUT".data) ("$ORIGINAL".data) ("T".data) =
      "$ORIGINAL".data ∧
    resolvedPrompt ("$INPUT".data) ("$$".data) ("x".data) = "$".data ∧
    claimedSimultaneousSubst ("$INPUT".data) ("$$".data) ("x".data) =
      "$$".data := by
  refine ⟨by decide, by decide, by decide, by decide⟩


-- ── Replace-semantics lemmas ───────────────────────────────────────────

theorem jsRepGo_succ_cons (pat rep whole : Str) (f idx : Nat) (c : Char) (cs : Str) :
    jsRepGo pat rep whole (f + 1) idx (c :: cs) =
      if pat ≠ [] ∧ pat.isPrefixOf (c :: cs) then
        expandRep whole idx pat rep ++
          jsRepGo pat rep whole f (idx + pat.length) (List.drop pat.length (c :: cs))
      else c :: jsRepGo pat rep whole f (idx + 1) cs := rfl

theorem jsRepGo_fuel (pat rep whole : Str) :
    ∀ (f g idx : Nat) (s : Str), s.length ≤ f → s.length ≤ g →
      jsRepGo pat rep whole f idx s = jsRepGo pat rep whole g idx s := by
  intro f
  induction f with
  | zero =>
    intro g idx s hf _
    have hs : s = [] := List.eq_nil_of_length_eq_zero (Nat.le_zero.mp hf)
    subst hs
    cases g <;> rfl
  | succ f ih =>
    intro g idx s hf hg
    cases s with
    | nil => cases g <;> rfl
    | cons c cs =>
      cases g with
      | zero => simp at hg
      | succ g =>
        rw [jsRepGo_succ_cons, jsRepGo_succ_cons]
        by_cases h : pat ≠ [] ∧ pat.isPrefixOf (c :: cs)
        · rw [if_pos h, if_pos h]
          congr 1
          have hp1 : 1 ≤ pat.length := by
            cases hpat : pat with
            | nil => exact absurd hpat h.1
            | cons _ _ => simp
          apply ih
          · rw [List.length_drop]
            simp only [List.length_cons] at hf ⊢
            omega
          · rw [List.length_drop]
            simp only [List.length_cons] at hg ⊢
            omega
        · rw [if_neg h, if_neg h]
          congr 1
          apply ih
          · simp only [List.length_cons] at hf; omega
          · simp only [List.length_cons] at hg; omega

/-- Canonical-fuel form of the replace scan, used only in proofs. -/
def jsRepC (pat rep whole : Str) (idx : Nat) (s : Str) : Str :=
  jsRepGo pat rep whole s.length idx s

theorem jsReplaceAll_eq_jsRepC (pat rep s : Str) :
    jsReplaceAll pat rep s = jsRepC pat rep s 0 s := rfl

theorem jsRepC_nil (pat rep whole : Str) (idx : Nat) :
    jsRepC pat rep whole idx [] = [] := rfl

theorem jsRepC_match (pat rep whole : Str) (idx : Nat) (c : Char) (cs : Str)
    (h1 : pat ≠ []) (h2 : pat.isPrefixOf (c :: cs) = true) :
    jsRepC pat rep whole idx (c :: cs) =
      expandRep whole idx pat rep ++
        jsRepC pat rep whole (idx + pat.length) (List.drop pat.length (c :: cs)) := by
  have hp1 : 1 ≤ pat.length := by
    cases hpat : pat with
    | nil => exact absurd hpat h1
    | cons _ _ => simp
  show jsRepGo pat rep whole (cs.length + 1) idx (c :: cs) = _
  rw [jsRepGo_succ_cons, if_pos ⟨h1, h2⟩]
  congr 1
  apply jsRepGo_fuel
  · rw [List.length_drop]
    simp only [List.length_cons]
    omega
  · exact Nat.le_refl _

theorem jsRepC_nomatch (pat rep whole : Str) (idx : Nat) (c : Char) (cs : Str)
    (h : ¬(pat ≠ [] ∧ pat.isPrefixOf (c :: cs))) :
    jsRepC pat rep whole idx (c :: cs) = c :: jsRepC pat rep whole (idx + 1) cs := by
  show jsRepGo pat rep whole (cs.length + 1) idx (c :: cs) = _
  rw [jsRepGo_succ_cons, if_neg h]
  rfl

theorem expandRep_cons (whole : Str) (idx : Nat) (matched : Str) (c : Char)
    (rest : Str) (hc : ¬ c = '$') :
    expandRep whole idx matched (c :: rest) = c :: expandRep whole idx matched rest := by
  conv_lhs => rw [expandRep.eq_def]
  simp only [if_neg hc]

theorem expandRep_no_dollar (whole : Str) (idx : Nat) (matched rep : Str)
    (hrep : ∀ c ∈ rep, ¬ c = '$') :
    expandRep whole idx matched rep = rep := by
  induction rep with
  | nil => rfl
  | cons c rest ih =>
    rw [expandRep_cons whole idx matched c rest (hrep c (List.mem_cons_self c rest)),
      ih (fun x hx => hrep x (List.mem_cons_of_mem c hx))]

theorem isPrefixOf_cons₂ (a b : Char) (as bs : Str) :
    (a :: as).isPrefixOf (b :: bs) = ((a == b) && as.isPrefixOf bs) := rfl

theorem isPrefixOf_head (p : Char) (ps : Str) (c : Char) (cs : Str)
    (h : (p :: ps).isPrefixOf (c :: cs) = true) :
    p = c ∧ ps.isPrefixOf cs = true := by
  rw [isPrefixOf_cons₂, Bool.and_eq_true] at h
  exact ⟨by simpa using h.1, h.2⟩

theorem isPrefixOf_eq_append (p : Str) :
    ∀ s, p.isPrefixOf s = true → s = p ++ List.drop p.length s := by
  induction p with
  | nil => intro s _; simp
  | cons a p ih =>
    intro s h
    cases s with
    | nil => simp [List.isPrefixOf] at h
    | cons b cs =>
      obtain ⟨hab, hp⟩ := isPrefixOf_head a p b cs h
      subst hab
      have hcs := ih cs hp
      calc a :: cs = a :: (p ++ List.drop p.length cs) := by rw [← hcs]
        _ = (a :: p) ++ List.drop (a :: p).length (a :: cs) := by
          rw [List.cons_append]
          rfl

theorem jsRepC_skip (pat rep whole : Str) (ps : Str) (hpat : pat = '$' :: ps) :
    ∀ (a : Str), (∀ c ∈ a, ¬ c = '$') → ∀ (b : Str) (idx : Nat),
      jsRepC pat rep whole idx (a ++ b) =
        a ++ jsRepC pat rep whole (idx + a.length) b := by
  intro a
  induction a with
  | nil =>
    intro _ b idx
    simp
  | cons c a ih =>
    intro ha b idx
    have hc : ¬ c = '$' := ha c (List.mem_cons_self c a)
    have hno : ¬(pat ≠ [] ∧ pat.isPrefixOf (c :: (a ++ b))) := by
      intro hcontra
      have h2 : ('$' :: ps).isPrefixOf (c :: (a ++ b)) = true := by
        rw [← hpat]; exact hcontra.2
      exact hc (isPrefixOf_head '$' ps c (a ++ b) h2).1.symm
    rw [List.cons_append, jsRepC_nomatch pat rep whole idx c (a ++ b) hno,
      ih (fun x hx => ha x (List.mem_cons_of_mem c hx)) b (idx + 1)]
    simp only [List.cons_append, List.length_cons]
    rw [show idx + 1 + a.length = idx + (a.length + 1) from by omega]

theorem jsRepC_match_self (pat rep whole : Str) (idx : Nat) (X : Str)
    (h : pat ≠ []) :
    jsRepC pat rep whole idx (pat ++ X) =
      expandRep whole idx pat rep ++
        jsRepC pat rep whole (idx + pat.length) X := by
  cases hp : pat with
  | nil => exact absurd hp h
  | cons q qs =>
    subst hp
    rw [List.cons_append,
      jsRepC_match (q :: qs) rep whole idx q (qs ++ X) (by simp)
        (by rw [← List.cons_append]; exact isPrefixOf_append_self (q :: qs) X)]
    congr 1
    rw [show List.drop (q :: qs).length (q :: (qs ++ X)) = X from by
      rw [← List.cons_append]; exact List.drop_left (q :: qs) X]

-- ── Claimed simultaneous substitution lemmas ───────────────────────────

theorem claimedSubstGo_succ_cons (input orig : Str) (f : Nat) (c : Char) (cs : Str) :
    claimedSubstGo input orig (f + 1) (c :: cs) =
      if sINPUT.isPrefixOf (c :: cs) then
        input ++ claimedSubstGo input orig f (List.drop sINPUT.length (c :: cs))
      else if sORIGINAL.isPrefixOf (c :: cs) then
        orig ++ claimedSubstGo input orig f (List.drop sORIGINAL.length (c :: cs))
      else c :: claimedSubstGo input orig f cs := rfl

theorem claimedSubstGo_fuel (input orig : Str) :
    ∀ (f g : Nat) (s : Str), s.length ≤ f → s.length ≤ g →
      claimedSubstGo input orig f s = claimedSubstGo input orig g s := by
  intro f
  induction f with
  | zero =>
    intro g s hf _
    have hs : s = [] := List.eq_nil_of_length_eq_zero (Nat.le_zero.mp hf)
    subst hs
    cases g <;> rfl
  | succ f ih =>
    intro g s hf hg
    cases s with
    | nil => cases g <;> rfl
    | cons c cs =>
      cases g with
      | zero => simp at hg
      | succ g =>
        rw [claimedSubstGo_succ_cons, claimedSubstGo_succ_cons]
        by_cases h1 : sINPUT.isPrefixOf (c :: cs)
        · rw [if_pos h1, if_pos h1]
          congr 1
          apply ih <;>
            · rw [List.length_drop]
              simp only [List.length_cons] at *
              have : 1 ≤ sINPUT.length := by decide
              omega
        · rw [if_neg h1, if_neg h1]
          by_cases h2 : sORIGINAL.isPrefixOf (c :: cs)
          · rw [if_pos h2, if_pos h2]
            congr 1
            apply ih <;>
              · rw [List.length_drop]
                simp only [List.length_cons] at *
                have : 1 ≤ sORIGINAL.length := by decide
                omega
          · rw [if_neg h2, if_neg h2]
            congr 1
            apply ih <;>
              · simp only [List.length_cons] at *
                omega

/-- Canonical-fuel form of the claimed substitution, used only in proofs. -/
def claimedC (input orig s : Str) : Str :=
  claimedSubstGo input orig s.length s

theorem claimedC_input (input orig : Str) (c : Char) (cs : Str)
    (h : sINPUT.isPrefixOf (c :: cs) = true) :
    claimedC input orig (c :: cs) =
      input ++ claimedC input orig (List.drop sINPUT.length (c :: cs)) := by
  show claimedSubstGo input orig (cs.length + 1) (c :: cs) = _
  rw [claimedSubstGo_succ_cons, if_pos h]
  congr 1
  apply claimedSubstGo_fuel
  · rw [List.length_drop]
    simp only [List.length_cons]
    have : 1 ≤ sINPUT.length := by decide
    omega
  · exact Nat.le_refl _

theorem claimedC_orig (input orig : Str) (c : Char) (cs : Str)
    (h1 : ¬ sINPUT.isPrefixOf (c :: cs)) (h2 : sORIGINAL.isPrefixOf (c :: cs) = true) :
    claimedC input orig (c :: cs) =
      orig ++ claimedC input orig (List.drop sORIGINAL.length (c :: cs)) := by
  show claimedSubstGo input orig (cs.length + 1) (c :: cs) = _
  rw [claimedSubstGo_succ_cons, if_neg h1, if_pos h2]
  congr 1
  apply claimedSubstGo_fuel
  · rw [List.length_drop]
    simp only [List.length_cons]
    have : 1 ≤ sORIGINAL.length := by decide
    omega
  · exact Nat.le_refl _

theorem claimedC_char (input orig : Str) (c : Char) (cs : Str)
    (h1 : ¬ sINPUT.isPrefixOf (c :: cs)) (h2 : ¬ sORIGINAL.isPrefixOf (c :: cs)) :
    claimedC input orig (c :: cs) = c :: claimedC input orig cs := by
  show claimedSubstGo input orig (cs.length + 1) (c :: cs) = _
  rw [claimedSubstGo_succ_cons, if_neg h1, if_neg h2]
  rfl

theorem dollarsOk_cons (c : Char) (cs : Str) :
    dollarsOk (c :: cs) =
      ((if c = '$' then
         ("INPUT".data).isPrefixOf cs || ("ORIGINAL".data).isPrefixOf cs
        else true) && dollarsOk cs) := rfl

theorem dollarsOk_append_right : ∀ a b : Str, dollarsOk (a ++ b) = true → dollarsOk b = true := by
  intro a
  induction a with
  | nil => intro b h; exact h
  | cons c a ih =>
    intro b h
    rw [List.cons_append, dollarsOk_cons, Bool.and_eq_true] at h
    exact ih b h.2

theorem seq_eq_claimed_aux (input orig : Str)
    (hi : ∀ c ∈ input, ¬ c = '$') (ho : ∀ c ∈ orig, ¬ c = '$') :
    ∀ (n : Nat) (t : Str), t.length ≤ n → dollarsOk t = true →
      ∀ (idx1 : Nat) (whole1 : Str) (idx2 : Nat) (whole2 : Str),
        jsRepC sORIGINAL orig whole2 idx2 (jsRepC sINPUT input whole1 idx1 t) =
          claimedC input orig t := by
  intro n
  induction n with
  | zero =>
    intro t ht _ idx1 whole1 idx2 whole2
    have hs : t = [] := List.eq_nil_of_length_eq_zero (Nat.le_zero.mp ht)
    subst hs
    rfl
  | succ n ih =>
    intro t ht hd idx1 whole1 idx2 whole2
    cases t with
    | nil => rfl
    | cons c cs =>
      by_cases hin : sINPUT.isPrefixOf (c :: cs) = true
      · have hteq : (c :: cs) = sINPUT ++ List.drop sINPUT.length (c :: cs) :=
          isPrefixOf_eq_append sINPUT (c :: cs) hin
        rw [jsRepC_match sINPUT input whole1 idx1 c cs (by decide) hin,
          expandRep_no_dollar whole1 idx1 sINPUT input hi,
          jsRepC_skip sORIGINAL orig whole2 ("ORIGINAL".data) rfl input hi _ idx2,
          claimedC_input input orig c cs hin]
        congr 1
        apply ih
        · have h6 : sINPUT.length = 6 := by decide
          rw [List.length_drop, h6]
          simp only [List.length_cons] at ht ⊢
          omega
        · apply dollarsOk_append_right sINPUT
          rw [← hteq]
          exact hd
      · by_cases hc : c = '$'
        · subst hc
          have hd' := hd
          rw [dollarsOk_cons, Bool.and_eq_true, if_pos rfl] at hd'
          have hIin : ("INPUT".data).isPrefixOf cs = false := by
            cases hI : ("INPUT".data).isPrefixOf cs with
            | false => rfl
            | true =>
              exact absurd (by
                rw [show sINPUT = '$' :: "INPUT".data from rfl, isPrefixOf_cons₂]
                simp [hI]) hin
          have hOr : ("ORIGINAL".data).isPrefixOf cs = true := by
            have hor := hd'.1
            rw [Bool.or_eq_true] at hor
            rcases hor with hI | hO
            · rw [hIin] at hI; exact Bool.noConfusion hI
            · exact hO
          have horig : sORIGINAL.isPrefixOf ('$' :: cs) = true := by
            rw [show sORIGINAL = '$' :: "ORIGINAL".data from rfl, isPrefixOf_cons₂]
            simp [hOr]
          have hcs : cs = "ORIGINAL".data ++ List.drop ("ORIGINAL".data).length cs :=
            isPrefixOf_eq_append ("ORIGINAL".data) cs hOr
          have hno : ¬(sINPUT ≠ [] ∧ sINPUT.isPrefixOf ('$' :: cs)) :=
            fun h => hin h.2
          rw [jsRepC_nomatch sINPUT input whole1 idx1 '$' cs hno]
          have h1 : jsRepC sINPUT input whole1 (idx1 + 1) cs =
              "ORIGINAL".data ++
                jsRepC sINPUT input whole1 (idx1 + 1 + ("ORIGINAL".data).length)
                  (List.drop ("ORIGINAL".data).length cs) := by
            conv_lhs => rw [hcs]
            exact jsRepC_skip sINPUT input whole1 ("INPUT".data) rfl
              ("ORIGINAL".data) (by decide) _ (idx1 + 1)
          rw [h1, ← List.cons_append,
            show ('$' :: "ORIGINAL".data) = sORIGINAL from rfl,
            jsRepC_match_self sORIGINAL orig whole2 idx2 _ (by decide),
            expandRep_no_dollar whole2 idx2 sORIGINAL orig ho,
            claimedC_orig input orig '$' cs hin horig,
            show List.drop sORIGINAL.length ('$' :: cs) =
              List.drop ("ORIGINAL".data).length cs from rfl]
          congr 1
          apply ih
          · have h8 : ("ORIGINAL".data).length = 8 := by decide
            rw [List.length_drop, h8]
            simp only [List.length_cons] at ht
            omega
          · apply dollarsOk_append_right ("ORIGINAL".data)
            rw [← hcs]
            exact hd'.2
        · have hno1 : ¬(sINPUT ≠ [] ∧ sINPUT.isPrefixOf (c :: cs)) :=
            fun h => hin h.2
          rw [jsRepC_nomatch sINPUT input whole1 idx1 c cs hno1]
          have hno2 : ¬(sORIGINAL ≠ [] ∧
              sORIGINAL.isPrefixOf (c :: jsRepC sINPUT input whole1 (idx1 + 1) cs)) := by
            intro h
            have h2 : ('$' :: "ORIGINAL".data).isPrefixOf
                (c :: jsRepC sINPUT input whole1 (idx1 + 1) cs) = true := h.2
            exact hc (isPrefixOf_head '$' ("ORIGINAL".data) c _ h2).1.symm
          rw [jsRepC_nomatch sORIGINAL orig whole2 idx2 c _ hno2]
          have hno3 : ¬ sORIGINAL.isPrefixOf (c :: cs) = true := by
            intro h
            have h2 : ('$' :: "ORIGINAL".data).isPrefixOf (c :: cs) = true := h
            exact hc (isPrefixOf_head '$' ("ORIGINAL".data) c cs h2).1.symm
          rw [claimedC_char input orig c cs hin hno3]
          congr 1
          have hd2 : dollarsOk cs = true := by
            rw [dollarsOk_cons, Bool.and_eq_true] at hd
            exact hd.2
          apply ih cs _ hd2
          simp only [List.length_cons] at ht
          omega

/-- C8 (amended): the prompt sent to step i equals the template with the two
sequential JS replaces applied; whenever every dollar sign of the template
begins one of the two placeholders and the substituted texts contain no dollar
sign, this coincides with the claimed simultaneous verbatim substitution of
`$INPUT` by the previous output and `$ORIGINAL` by the task text.  (In general
the code's sequential replaces interpret JS dollar escapes in substituted text
and re-replace `$ORIGINAL` text arising from the first substitution.) -/
theorem C8_substitution_amended :
    ∀ (template input orig : Str),
      dollarsOk template = true →
      (∀ c ∈ input, ¬ c = '$') →
      (∀ c ∈ orig, ¬ c = '$') →
      resolvedPrompt template input orig =
        claimedSimultaneousSubst template input orig := by
  intro t i o hd hi ho
  have h := seq_eq_claimed_aux i o hi ho t.length t (Nat.le_refl _) hd
    0 t 0 (jsRepC sINPUT i t 0 t)
  exact h

/-- Witness for C8_substitution_amended at a concrete template and texts. -/
theorem C8_substitution_amended_witness :
    resolvedPrompt ("Do $INPUT for $ORIGINAL".data) ("stuff".data) ("task".data) =
      claimedSimultaneousSubst ("Do $INPUT for $ORIGINAL".data) ("stuff".data)
        ("task".data) :=
  C8_substitution_amended ("Do $INPUT for $ORIGINAL".data) ("stuff".data)
    ("task".data) (by decide) (by decide) (by decide)


-- ── Dispatcher lifecycle (agent-team.ts dispatchAgent) ─────────────────

/-- One word of `displayName`: first character upper-cased
(`w.charAt(0).toUpperCase() + w.slice(1)`). -/
def capWord : Str → Str
  | [] => []
  | c :: cs => Char.toUpper c :: cs

/-- `displayName`: `name.split("-").map(capitalize).join(" ")`. -/
def displayName (name : Str) : Str :=
  joinSep [' '] ((splitPred (fun c => c = '-') name).map capWord)

def alreadyRunningMsg (name : Str) : Str :=
  ("Agent \"".data) ++ displayName name ++
    ("\" is already running. Wait for it to finish.".data)

/-- Lifecycle status of a dispatcher-managed agent. -/
inductive DStatus
  | idle
  | running
  | done
  | error
deriving DecidableEq

/-- One dispatcher agent cell; `active` counts its live worker subprocesses
(instrumentation added by the model, not a source field). -/
structure DispatchCell where
  status : DStatus
  runCount : Nat
  active : Nat
deriving DecidableEq

/-- Events observable by one dispatcher identity: a dispatch request, or its
live worker closing with zero / non-zero exit (the spawn `error` handler
behaves as a non-zero close). -/
inductive DEv
  | dispatch
  | closeOk
  | closeErr
deriving DecidableEq

/-- `dispatchAgent` restricted to one identity: a dispatch on a running cell
returns the already-running message without spawning; otherwise it marks the
cell running, bumps `runCount` and spawns (second component: whether a
subprocess was spawned).  A close is delivered by the live worker — hence only
while the cell is running — and sets `done` or `error`. -/
def dispatchStep (name : Str) (cell : DispatchCell) :
    DEv → DispatchCell × Bool × Option Str
  | DEv.dispatch =>
    if cell.status = DStatus.running then
      (cell, false, some (alreadyRunningMsg name))
    else
      (⟨DStatus.running, cell.runCount + 1, cell.active + 1⟩, true, none)
  | DEv.closeOk =>
    if cell.status = DStatus.running then
      (⟨DStatus.done, cell.runCount, cell.active - 1⟩, false, none)
    else (cell, false, none)
  | DEv.closeErr =>
    if cell.status = DStatus.running then
      (⟨DStatus.error, cell.runCount, cell.active - 1⟩, false, none)
    else (cell, false, none)

def dispatchRun (name : Str) : DispatchCell → List DEv → DispatchCell
  | cell, [] => cell
  | cell, ev :: evs => dispatchRun name (dispatchStep name cell ev).1 evs

def dInit : DispatchCell := ⟨DStatus.idle, 0, 0⟩

/-- The single-live-worker invariant of one dispatcher cell. -/
abbrev dInv (cell : DispatchCell) : Prop :=
  cell.active = if cell.status = DStatus.running then 1 else 0

theorem dInv_step (name : Str) (cell : DispatchCell) (ev : DEv)
    (h : dInv cell) : dInv (dispatchStep name cell ev).1 := by
  by_cases hs : cell.status = DStatus.running <;>
    cases ev <;> simp [dispatchStep, hs, dInv] at h ⊢ <;> omega

theorem dInv_run (name : Str) :
    ∀ (evs : List DEv) (cell : DispatchCell), dInv cell →
      dInv (dispatchRun name cell evs) := by
  intro evs
  induction evs with
  | nil => intro cell h; exact h
  | cons ev evs ih =>
    intro cell h
    exact ih (dispatchStep name cell ev).1 (dInv_step name cell ev h)

-- ── Pool lifecycle (session-replay.ts subagent widget) ─────────────────

inductive PStatus
  | running
  | done
  | error
deriving DecidableEq

/-- One pool `SubState`; `live` counts its live worker subprocesses
(instrumentation added by the model, standing for the `proc` handle). -/
structure SubStateM where
  id : Nat
  status : PStatus
  task : Str
  turnCount : Nat
  live : Nat
deriving DecidableEq

/-- `Map.get` on the id-keyed agent map. -/
def pGet : List (Nat × SubStateM) → Nat → Option SubStateM
  | [], _ => none
  | q :: r, k => if q.1 = k then some q.2 else pGet r k

/-- `Map.set`: overwrites in place, appends if absent. -/
def pSet : List (Nat × SubStateM) → Nat → SubStateM → List (Nat × SubStateM)
  | [], k, v => [(k, v)]
  | q :: r, k, v => if q.1 = k then (k, v) :: r else q :: pSet r k v

/-- `Map.delete`. -/
def pDel : List (Nat × SubStateM) → Nat → List (Nat × SubStateM)
  | [], _ => []
  | q :: r, k => if q.1 = k then r else q :: pDel r k

structure PoolState where
  agents : List (Nat × SubStateM)
  nextId : Nat
deriving DecidableEq

/-- The module-level initial state: empty map, `nextId = 1`. -/
def poolInit : PoolState := ⟨[], 1⟩

/-- Pool operations: the `subagent_create` / `subagent_continue` /
`subagent_remove` tools, the `/subclear` command, and a live worker of
identity `id` closing (`ok` = zero exit). -/
inductive PoolEv
  | create (task : Str)
  | cont (id : Nat) (prompt : Str)
  | remove (id : Nat)
  | subclear
  | closeP (id : Nat) (ok : Bool)
deriving DecidableEq

/-- What one pool operation reports: the identity returned by a create, whether
a subprocess was spawned, and the tool-result / notification text (empty for a
worker close, which reports through a follow-up message instead). -/
structure PoolOut where
  createdId : Option Nat
  spawned : Bool
  message : Str
deriving DecidableEq

def notFoundMsg (id : Nat) : Str :=
  ("Error: No subagent #".data) ++ natStr id ++ (" found.".data)

def stillRunningMsg (id : Nat) : Str :=
  ("Error: Subagent #".data) ++ natStr id ++ (" is still running.".data)

def createdMsg (id : Nat) : Str :=
  ("Subagent #".data) ++ natStr id ++ (" spawned and running in background.".data)

def continuingMsg (id : Nat) : Str :=
  ("Subagent #".data) ++ natStr id ++
    (" continuing conversation in background.".data)

def removedMsg (id : Nat) : Str :=
  ("Subagent #".data) ++ natStr id ++ (" removed successfully.".data)

/-- The `/subclear` notification text. -/
def clearMsg (agents : List (Nat × SubStateM)) : Str :=
  let total := agents.length
  let killed :=
    (agents.filter (fun q => q.2.status == PStatus.running && q.2.live != 0)).length
  if total = 0 then "No subagents to clear.".data
  else
    ("Cleared ".data) ++ natStr total ++ (" subagent".data) ++
      (if total ≠ 1 then "s".data else []) ++
      (if killed > 0 then (" (".data) ++ natStr killed ++ (" killed)".data) else []) ++
      (".".data)

/-- One pool operation, translated from `session-replay.ts`:
`subagent_create` takes `id = nextId++`, installs a fresh running state and
fire-and-forgets a spawn; `subagent_continue` rejects an unknown id and a
running id, otherwise re-spawns with `turnCount + 1`; `subagent_remove` kills
a live worker and deletes the entry; `/subclear` kills all live workers,
clears the map and resets `nextId` to 1; a worker close marks its entry
`done`/`error`. -/
def poolStep (st : PoolState) : PoolEv → PoolState × PoolOut
  | PoolEv.create task =>
    let id := st.nextId
    (⟨pSet st.agents id ⟨id, PStatus.running, task, 1, 1⟩, id + 1⟩,
     ⟨some id, true, createdMsg id⟩)
  | PoolEv.cont id prompt =>
    match pGet st.agents id with
    | none => (st, ⟨none, false, notFoundMsg id⟩)
    | some cell =>
      if cell.status = PStatus.running then
        (st, ⟨none, false, stillRunningMsg id⟩)
      else
        (⟨pSet st.agents id
            ⟨cell.id, PStatus.running, prompt, cell.turnCount + 1, cell.live + 1⟩,
          st.nextId⟩,
         ⟨none, true, continuingMsg id⟩)
  | PoolEv.remove id =>
    match pGet st.agents id with
    | none => (st, ⟨none, false, notFoundMsg id⟩)
    | some _ => (⟨pDel st.agents id, st.nextId⟩, ⟨none, false, removedMsg id⟩)
  | PoolEv.subclear =>
    (⟨[], 1⟩, ⟨none, false, clearMsg st.agents⟩)
  | PoolEv.closeP id ok =>
    match pGet st.agents id with
    | none => (st, ⟨none, false, []⟩)
    | some cell =>
      if cell.status = PStatus.running then
        (⟨pSet st.agents id
            ⟨cell.id, if ok then PStatus.done else PStatus.error, cell.task,
              cell.turnCount, cell.live - 1⟩,
          st.nextId⟩,
         ⟨none, false, []⟩)
      else (st, ⟨none, false, []⟩)

def poolRun : PoolState → List PoolEv → PoolState × List PoolOut
  | st, [] => (st, [])
  | st, ev :: evs =>
    let p := poolStep st ev
    let r := poolRun p.1 evs
    (r.1, p.2 :: r.2)

/-- Identities returned by the create operations of a run, in order. -/
def createdIds (outs : List PoolOut) : List Nat :=
  outs.filterMap (fun o => o.createdId)

/-- The single-live-worker invariant of the pool. -/
abbrev pInv (st : PoolState) : Prop :=
  ∀ q ∈ st.agents, q.2.live = if q.2.status = PStatus.running then 1 else 0

theorem pGet_mem :
    ∀ (r : List (Nat × SubStateM)) (k : Nat) (v : SubStateM),
      pGet r k = some v → (k, v) ∈ r := by
  intro r
  induction r with
  | nil => intro k v h; exact Option.noConfusion h
  | cons q r ih =>
    intro k v h
    by_cases hk : q.1 = k
    · rw [pGet, if_pos hk] at h
      have hv : v = q.2 := (Option.some.injEq _ _).mp h.symm
      subst hv
      subst hk
      exact List.mem_cons_self _ _
    · rw [pGet, if_neg hk] at h
      exact List.mem_cons_of_mem q (ih k v h)

theorem pSet_mem :
    ∀ (r : List (Nat × SubStateM)) (k : Nat) (v : SubStateM),
      ∀ q ∈ pSet r k v, q = (k, v) ∨ q ∈ r := by
  intro r
  induction r with
  | nil =>
    intro k v q hq
    rw [pSet] at hq
    rcases List.mem_cons.mp hq with h | h
    · exact Or.inl h
    · exact absurd h (List.not_mem_nil q)
  | cons p r ih =>
    intro k v q hq
    by_cases hk : p.1 = k
    · rw [pSet, if_pos hk] at hq
      rcases List.mem_cons.mp hq with h | h
      · exact Or.inl h
      · exact Or.inr (List.mem_cons_of_mem p h)
    · rw [pSet, if_neg hk] at hq
      rcases List.mem_cons.mp hq with h | h
      · exact Or.inr (h ▸ List.mem_cons_self p r)
      · rcases ih k v q h with h2 | h2
        · exact Or.inl h2
        · exact Or.inr (List.mem_cons_of_mem p h2)

theorem pDel_mem :
    ∀ (r : List (Nat × SubStateM)) (k : Nat),
      ∀ q ∈ pDel r k, q ∈ r := by
  intro r
  induction r with
  | nil => intro k q hq; exact absurd hq (List.not_mem_nil q)
  | cons p r ih =>
    intro k q hq
    by_cases hk : p.1 = k
    · rw [pDel, if_pos hk] at hq
      exact List.mem_cons_of_mem p hq
    · rw [pDel, if_neg hk] at hq
      rcases List.mem_cons.mp hq with h | h
      · exact h ▸ List.mem_cons_self p r
      · exact List.mem_cons_of_mem p (ih k q h)

theorem pGet_pSet :
    ∀ (r : List (Nat × SubStateM)) (k : Nat) (v : SubStateM),
      pGet (pSet r k v) k = some v := by
  intro r
  induction r with
  | nil => intro k v; simp [pSet, pGet]
  | cons q r ih =>
    intro k v
    by_cases h : q.1 = k
    · rw [pSet, if_pos h, pGet, if_pos rfl]
    · rw [pSet, if_neg h, pGet, if_neg h, ih]

theorem pInv_step (st : PoolState) (ev : PoolEv) (h : pInv st) :
    pInv (poolStep st ev).1 := by
  cases ev with
  | create task =>
    intro q hq
    rcases pSet_mem st.agents st.nextId _ q hq with rfl | hmem
    · simp
    · exact h q hmem
  | cont id prompt =>
    cases hq : pGet st.agents id with
    | none => simpa [poolStep, hq] using h
    | some cell =>
      by_cases hs : cell.status = PStatus.running
      · simpa [poolStep, hq, hs] using h
      · have hc : cell.live = 0 := by
          have := h (id, cell) (pGet_mem st.agents id cell hq)
          simpa [hs] using this
        intro q hqm
        have hqm2 : q ∈ pSet st.agents id
            ⟨cell.id, PStatus.running, prompt, cell.turnCount + 1, cell.live + 1⟩ := by
          simpa [poolStep, hq, hs] using hqm
        rcases pSet_mem st.agents id _ q hqm2 with rfl | hmem
        · simp [hc]
        · exact h q hmem
  | remove id =>
    cases hq : pGet st.agents id with
    | none => simpa [poolStep, hq] using h
    | some cell =>
      intro q hqm
      simp only [poolStep, hq] at hqm
      exact h q (pDel_mem st.agents id q hqm)
  | subclear =>
    intro q hq
    exact absurd hq (List.not_mem_nil q)
  | closeP id ok =>
    cases hq : pGet st.agents id with
    | none => simpa [poolStep, hq] using h
    | some cell =>
      by_cases hs : cell.status = PStatus.running
      · have hc : cell.live = 1 := by
          have := h (id, cell) (pGet_mem st.agents id cell hq)
          simpa [hs] using this
        intro q hqm
        have hqm2 : q ∈ pSet st.agents id
            ⟨cell.id, if ok then PStatus.done else PStatus.error, cell.task,
              cell.turnCount, cell.live - 1⟩ := by
          simpa [poolStep, hq, hs] using hqm
        rcases pSet_mem st.agents id _ q hqm2 with rfl | hmem
        · cases ok <;> simp [hc]
        · exact h q hmem
      · simpa [poolStep, hq, hs] using h

theorem pInv_run :
    ∀ (evs : List PoolEv) (st : PoolState), pInv st →
      pInv (poolRun st evs).1 := by
  intro evs
  induction evs with
  | nil => intro st h; exact h
  | cons ev evs ih =>
    intro st h
    exact ih (poolStep st ev).1 (pInv_step st ev h)

theorem poolStep_nextId (st : PoolState) (ev : PoolEv)
    (h : ev ≠ PoolEv.subclear) : st.nextId ≤ (poolStep st ev).1.nextId := by
  cases ev with
  | create t => exact Nat.le_succ st.nextId
  | cont id p =>
    cases hq : pGet st.agents id with
    | none => simp [poolStep, hq]
    | some cell =>
      by_cases hs : cell.status = PStatus.running <;> simp [poolStep, hq, hs]
  | remove id => cases hq : pGet st.agents id <;> simp [poolStep, hq]
  | subclear => exact absurd rfl h
  | closeP id ok =>
    cases hq : pGet st.agents id with
    | none => simp [poolStep, hq]
    | some cell =>
      by_cases hs : cell.status = PStatus.running <;> simp [poolStep, hq, hs]

theorem poolStep_created_none (st : PoolState) (ev : PoolEv)
    (h : ∀ t, ev ≠ PoolEv.create t) : (poolStep st ev).2.createdId = none := by
  cases ev with
  | create t => exact absurd rfl (h t)
  | cont id p =>
    cases hq : pGet st.agents id with
    | none => simp [poolStep, hq]
    | some cell =>
      by_cases hs : cell.status = PStatus.running <;> simp [poolStep, hq, hs]
  | remove id => cases hq : pGet st.agents id <;> simp [poolStep, hq]
  | subclear => simp [poolStep]
  | closeP id ok =>
    cases hq : pGet st.agents id with
    | none => simp [poolStep, hq]
    | some cell =>
      by_cases hs : cell.status = PStatus.running <;> simp [poolStep, hq, hs]

theorem poolRun_ids_aux :
    ∀ (evs : List PoolEv) (st : PoolState),
      (∀ e ∈ evs, e ≠ PoolEv.subclear) →
      st.nextId ≤ (poolRun st evs).1.nextId ∧
      (∀ i ∈ createdIds (poolRun st evs).2, st.nextId ≤ i) ∧
      List.Pairwise (fun a b : Nat => a < b) (createdIds (poolRun st evs).2) := by
  intro evs
  induction evs with
  | nil =>
    intro st _
    refine ⟨Nat.le_refl _, ?_, ?_⟩
    · intro i hi
      exact absurd hi (List.not_mem_nil i)
    · exact List.Pairwise.nil
  | cons ev evs ih =>
    intro st h
    have hev : ev ≠ PoolEv.subclear := h ev (List.mem_cons_self ev evs)
    have htail : ∀ e ∈ evs, e ≠ PoolEv.subclear :=
      fun e he => h e (List.mem_cons_of_mem ev he)
    obtain ⟨ih1, ih2, ih3⟩ := ih (poolStep st ev).1 htail
    have hrun : poolRun st (ev :: evs) =
        ((poolRun (poolStep st ev).1 evs).1,
          (poolStep st ev).2 :: (poolRun (poolStep st ev).1 evs).2) := rfl
    rw [hrun]
    by_cases hc : ∃ t, ev = PoolEv.create t
    · obtain ⟨t, rfl⟩ := hc
      have hstep : (poolStep st (PoolEv.create t)).2.createdId = some st.nextId := rfl
      refine ⟨Nat.le_trans (Nat.le_succ _) ih1, ?_, ?_⟩
      · intro i hi
        simp only [createdIds, List.filterMap_cons, hstep] at hi
        rcases List.mem_cons.mp hi with rfl | hi2
        · exact Nat.le_refl _
        · exact Nat.le_trans (Nat.le_succ _) (ih2 i hi2)
      · simp only [createdIds, List.filterMap_cons, hstep]
        refine List.Pairwise.cons ?_ ih3
        intro b hb
        exact Nat.lt_of_succ_le (ih2 b hb)
    · have hstep : (poolStep st ev).2.createdId = none :=
        poolStep_created_none st ev (fun t het => hc ⟨t, het⟩)
      have hnext : st.nextId ≤ (poolStep st ev).1.nextId := poolStep_nextId st ev hev
      refine ⟨Nat.le_trans hnext ih1, ?_, ?_⟩
      · intro i hi
        simp only [createdIds, List.filterMap_cons, hstep] at hi
        exact Nat.le_trans hnext (ih2 i hi)
      · simp only [createdIds, List.filterMap_cons, hstep]
        exact ih3

/-- C3: at most one worker subprocess is actively running per identity.
(1) A dispatch on a running dispatcher cell returns the already-running
message, spawns nothing and leaves the cell unchanged.  (2) Along every
dispatcher event trace from a cell satisfying the single-live-worker
invariant, at most one worker is live.  (3) A pool continue on an identity
whose state is running is rejected with the still-running message, spawns
nothing and leaves the pool unchanged.  (4) Immediately after a create, a
continue on the fresh identity is rejected exactly this way.  (5) Along every
pool event trace from a state satisfying the invariant, every identity has at
most one live worker. -/
theorem C3_single_active_run :
    (∀ (name : Str) (cell : DispatchCell), cell.status = DStatus.running →
        dispatchStep name cell DEv.dispatch =
          (cell, false, some (alreadyRunningMsg name))) ∧
    (∀ (name : Str) (evs : List DEv) (cell : DispatchCell), dInv cell →
        (dispatchRun name cell evs).active ≤ 1) ∧
    (∀ (st : PoolState) (id : Nat) (prompt : Str) (cell : SubStateM),
        pGet st.agents id = some cell → cell.status = PStatus.running →
        poolStep st (PoolEv.cont id prompt) =
          (st, ⟨none, false, stillRunningMsg id⟩)) ∧
    (∀ (st : PoolState) (t prompt : Str),
        poolStep (poolStep st (PoolEv.create t)).1 (PoolEv.cont st.nextId prompt) =
          ((poolStep st (PoolEv.create t)).1,
            ⟨none, false, stillRunningMsg st.nextId⟩)) ∧
    (∀ (evs : List PoolEv) (st : PoolState), pInv st →
        ∀ q ∈ (poolRun st evs).1.agents, q.2.live ≤ 1) := by
  refine ⟨?_, ?_, ?_, ?_, ?_⟩
  · intro name cell h
    simp [dispatchStep, h]
  · intro name evs cell h
    have := dInv_run name evs cell h
    rw [this]
    by_cases hs : (dispatchRun name cell evs).status = DStatus.running <;>
      simp [hs]
  · intro st id prompt cell hq hs
    simp [poolStep, hq, hs]
  · intro st t prompt
    have hq : pGet (pSet st.agents st.nextId
          ⟨st.nextId, PStatus.running, t, 1, 1⟩) st.nextId =
        some ⟨st.nextId, PStatus.running, t, 1, 1⟩ :=
      pGet_pSet st.agents st.nextId _
    simp [poolStep, hq]
  · intro evs st h q hq
    have := pInv_run evs st h q hq
    rw [this]
    by_cases hs : q.2.status = PStatus.running <;> simp [hs]

/-- Witness for C3_single_active_run at concrete identities and traces. -/
theorem C3_single_active_run_witness :
    (dispatchStep ("scout".data) ⟨DStatus.running, 3, 1⟩ DEv.dispatch =
        (⟨DStatus.running, 3, 1⟩, false, some (alreadyRunningMsg ("scout".data)))) ∧
    ((dispatchRun ("scout".data) dInit
        [DEv.dispatch, DEv.closeOk, DEv.dispatch]).active ≤ 1) ∧
    (poolStep poolInit (PoolEv.cont 7 ("p".data)) =
        (poolInit, ⟨none, false, stillRunningMsg 7⟩) ∨
      pGet poolInit.agents 7 = none) ∧
    (poolStep (poolStep poolInit (PoolEv.create ("t".data))).1
        (PoolEv.cont 1 ("p".data)) =
      ((poolStep poolInit (PoolEv.create ("t".data))).1,
        ⟨none, false, stillRunningMsg 1⟩)) ∧
    (∀ q ∈ (poolRun poolInit
        [PoolEv.create ("t".data), PoolEv.cont 1 ("p".data),
          PoolEv.closeP 1 true]).1.agents, q.2.live ≤ 1) := by
  refine ⟨C3_single_active_run.1 ("scout".data) ⟨DStatus.running, 3, 1⟩ rfl,
    C3_single_active_run.2.1 ("scout".data)
      [DEv.dispatch, DEv.closeOk, DEv.dispatch] dInit (by decide),
    Or.inr rfl,
    C3_single_active_run.2.2.2.1 poolInit ("t".data) ("p".data),
    C3_single_active_run.2.2.2.2
      [PoolEv.create ("t".data), PoolEv.cont 1 ("p".data), PoolEv.closeP 1 true]
      poolInit (by intro q hq; exact absurd hq (List.not_mem_nil q))⟩

/-- C9 counterexample: in the trace create, /subclear, create the two create
operations return the identities 1 and 1 — `/subclear` resets `nextId` to 1,
so identities are reused and are not strictly increasing across a session. -/
theorem C9_id_reuse_counterexample :
    createdIds (poolRun poolInit
        [PoolEv.create ("a".data), PoolEv.subclear,
          PoolEv.create ("b".data)]).2 = [1, 1] ∧
      ¬ List.Pairwise (fun a b : Nat => a < b)
        (createdIds (poolRun poolInit
          [PoolEv.create ("a".data), PoolEv.subclear,
            PoolEv.create ("b".data)]).2) := by
  decide

/-- C9 (amended): within one session, the identities returned by the create
operations are strictly increasing provided no `/subclear` occurs between
them; `/subclear` clears the pool AND resets the id counter to 1, after which
identities are reused. -/
theorem C9_pool_ids_monotone (evs : List PoolEv)
    (h : ∀ e ∈ evs, e ≠ PoolEv.subclear) :
    List.Pairwise (fun a b : Nat => a < b) (createdIds (poolRun poolInit evs).2) :=
  (poolRun_ids_aux evs poolInit h).2.2

/-- Witness for C9_pool_ids_monotone on a concrete subclear-free trace. -/
theorem C9_pool_ids_monotone_witness :
    (∀ e ∈ [PoolEv.create ("a".data), PoolEv.cont 1 ("p".data),
        PoolEv.create ("b".data), PoolEv.remove 1, PoolEv.create ("c".data)],
      e ≠ PoolEv.subclear) ∧
    List.Pairwise (fun a b : Nat => a < b)
      (createdIds (poolRun poolInit
        [PoolEv.create ("a".data), PoolEv.cont 1 ("p".data),
          PoolEv.create ("b".data), PoolEv.remove 1,
          PoolEv.create ("c".data)]).2) :=
  ⟨by decide,
    C9_pool_ids_monotone
      [PoolEv.create ("a".data), PoolEv.cont 1 ("p".data),
        PoolEv.create ("b".data), PoolEv.remove 1, PoolEv.create ("c".data)]
      (by decide)⟩

-- ── Pipeline (agent-chain.ts runChain) ─────────────────────────────────

/-- One step of a chain definition: persona name and prompt template. -/
structure ChainStepDef where
  agent : Str
  prompt : Str
deriving DecidableEq

/-- The outcome of one worker run (`runAgent`): collected text and exit code. -/
structure RunResult where
  output : Str
  exitCode : Int
deriving DecidableEq

/-- The value returned by `runChain`; `executed` is instrumentation listing the
0-based indices of the steps whose worker was actually invoked. -/
structure ChainOutcome where
  output : Str
  success : Bool
  executed : List Nat
deriving DecidableEq

def stepNotFoundMsg (i : Nat) (agent : Str) (agentKeys : List Str) : Str :=
  ("Error at step ".data) ++ natStr (i + 1) ++ (": Agent \"".data) ++ agent ++
    ("\" not found. Available: ".data) ++ joinSep (", ".data) agentKeys

def stepFailMsg (i : Nat) (agent : Str) (out : Str) : Str :=
  ("Error at step ".data) ++ natStr (i + 1) ++ (" (".data) ++ agent ++
    ("): ".data) ++ out

/-- The body of `runChain` from step `i` on: resolve the prompt, look the
persona up by lowercased name (unknown name aborts with the step-indexed
not-found message), run the worker (modelled by `oracle`; non-zero exit aborts
with the step-indexed failure message carrying only that worker's output), and
thread the worker's output into the next step as `input`. -/
def runChainFrom (agentKeys : List Str) (oracle : Nat → Str → RunResult)
    (orig : Str) : Nat → List ChainStepDef → Str → ChainOutcome
  | _, [], input => ⟨input, true, []⟩
  | i, step :: rest, input =>
    let prompt := resolvedPrompt step.prompt input orig
    if agentKeys.contains (step.agent.map Char.toLower) then
      let r := oracle i prompt
      if r.exitCode ≠ 0 then
        ⟨stepFailMsg i step.agent r.output, false, [i]⟩
      else
        let c := runChainFrom agentKeys oracle orig (i + 1) rest r.output
        ⟨c.output, c.success, i :: c.executed⟩
    else
      ⟨stepNotFoundMsg i step.agent agentKeys, false, []⟩

def runChain (agentKeys : List Str) (oracle : Nat → Str → RunResult)
    (task : Str) (steps : List ChainStepDef) : ChainOutcome :=
  runChainFrom agentKeys oracle task 0 steps task

theorem runChainFrom_fail (agentKeys : List Str)
    (oracle : Nat → Str → RunResult) (orig : Str) :
    ∀ (steps : List ChainStepDef) (i : Nat) (input : Str),
      (runChainFrom agentKeys oracle orig i steps input).success = false →
      ∃ j, ∃ hj : j < steps.length,
        (∀ m ∈ (runChainFrom agentKeys oracle orig i steps input).executed,
          m ≤ i + j) ∧
        ((runChainFrom agentKeys oracle orig i steps input).output =
            stepNotFoundMsg (i + j) (steps.get ⟨j, hj⟩).agent agentKeys ∨
          ∃ ro, (runChainFrom agentKeys oracle orig i steps input).output =
            stepFailMsg (i + j) (steps.get ⟨j, hj⟩).agent ro) := by
  intro steps
  induction steps with
  | nil =>
    intro i input h
    simp [runChainFrom] at h
  | cons step rest ih =>
    intro i input h
    by_cases hfound : agentKeys.contains (step.agent.map Char.toLower) = true
    · have hfound2 : (step.agent.map Char.toLower) ∈ agentKeys := by
        simpa using hfound
      by_cases hexit :
        (oracle i (resolvedPrompt step.prompt input orig)).exitCode ≠ 0
      · refine ⟨0, Nat.succ_pos _, ?_,
          Or.inr ⟨(oracle i (resolvedPrompt step.prompt input orig)).output, ?_⟩⟩
        · intro m hm
          simp [runChainFrom, hfound2, hexit] at hm
          omega
        · simp [runChainFrom, hfound2, hexit]
      · have hsucc :
            (runChainFrom agentKeys oracle orig i (step :: rest) input).success =
            (runChainFrom agentKeys oracle orig (i + 1) rest
              (oracle i (resolvedPrompt step.prompt input orig)).output).success := by
          simp [runChainFrom, hfound2, hexit]
        obtain ⟨j, hj, hexec, hout⟩ :=
          ih (i + 1) (oracle i (resolvedPrompt step.prompt input orig)).output
            (by rw [← hsucc]; exact h)
        refine ⟨j + 1, Nat.succ_lt_succ hj, ?_, ?_⟩
        · intro m hm
          simp [runChainFrom, hfound2, hexit] at hm
          rcases hm with rfl | hm2
          · omega
          · have := hexec m hm2
            omega
        · have houtw :
              (runChainFrom agentKeys oracle orig i (step :: rest) input).output =
              (runChainFrom agentKeys oracle orig (i + 1) rest
                (oracle i (resolvedPrompt step.prompt input orig)).output).output := by
            simp [runChainFrom, hfound2, hexit]
          rw [houtw, show i + (j + 1) = (i + 1) + j from by omega]
          simpa only [List.get_cons_succ] using hout
    · have hfound2 : ¬ (step.agent.map Char.toLower) ∈ agentKeys := by
        simpa using hfound
      refine ⟨0, Nat.succ_pos _, ?_, Or.inl ?_⟩
      · intro m hm
        simp [runChainFrom, hfound2] at hm
      · simp [runChainFrom, hfound2]

/-- C4: whenever a pipeline run fails, there is a failing step j (0-based) such
that the output names its 1-based index and its worker, equals exactly the
pinpointed not-found or failure message for that step (so earlier steps'
outputs are not part of the returned value), and no later step's worker was
ever invoked. -/
theorem C4_pipeline_fail_fast (agentKeys : List Str)
    (oracle : Nat → Str → RunResult) (task : Str) (steps : List ChainStepDef)
    (h : (runChain agentKeys oracle task steps).success = false) :
    ∃ j, ∃ hj : j < steps.length,
      containsSub (natStr (j + 1))
        (runChain agentKeys oracle task steps).output = true ∧
      containsSub (steps.get ⟨j, hj⟩).agent
        (runChain agentKeys oracle task steps).output = true ∧
      (∀ m ∈ (runChain agentKeys oracle task steps).executed, m ≤ j) ∧
      ((runChain agentKeys oracle task steps).output =
          stepNotFoundMsg j (steps.get ⟨j, hj⟩).agent agentKeys ∨
        ∃ ro, (runChain agentKeys oracle task steps).output =
          stepFailMsg j (steps.get ⟨j, hj⟩).agent ro) := by
  obtain ⟨j, hj, hexec, hout⟩ :=
    runChainFrom_fail agentKeys oracle task steps 0 task h
  simp only [Nat.zero_add] at hexec hout
  have hrw : runChain agentKeys oracle task steps =
      runChainFrom agentKeys oracle task 0 steps task := rfl
  refine ⟨j, hj, ?_, ?_, ?_, ?_⟩
  · rw [hrw]
    rcases hout with heq | ⟨ro, heq⟩ <;> rw [heq]
    · simp only [stepNotFoundMsg, List.append_assoc]
      exact containsSub_append_left _ _ _ (containsSub_here _ _)
    · simp only [stepFailMsg, List.append_assoc]
      exact containsSub_append_left _ _ _ (containsSub_here _ _)
  · rw [hrw]
    rcases hout with heq | ⟨ro, heq⟩ <;> rw [heq]
    · simp only [stepNotFoundMsg, List.append_assoc]
      exact containsSub_append_left _ _ _ (containsSub_append_left _ _ _
        (containsSub_append_left _ _ _ (containsSub_here _ _)))
    · simp only [stepFailMsg, List.append_assoc]
      exact containsSub_append_left _ _ _ (containsSub_append_left _ _ _
        (containsSub_append_left _ _ _ (containsSub_here _ _)))
  · rw [hrw]
    exact hexec
  · rw [hrw]
    exact hout

/-- A three-step chain whose second worker exits non-zero, for the witness. -/
def chainOracleW : Nat → Str → RunResult :=
  fun i _ => if i = 1 then ⟨"boom".data, 1⟩ else ⟨"ok".data, 0⟩

def chainStepsW : List ChainStepDef :=
  [⟨"a".data, "do $INPUT".data⟩, ⟨"b".data, "then $INPUT".data⟩,
    ⟨"c".data, "finally $INPUT".data⟩]

/-- Witness for C4_pipeline_fail_fast on the concrete three-step chain. -/
theorem C4_pipeline_fail_fast_witness :
    (runChain [("a".data), ("b".data), ("c".data)] chainOracleW ("t".data)
        chainStepsW).success = false ∧
    ∃ j, ∃ hj : j < chainStepsW.length,
      containsSub (natStr (j + 1))
        (runChain [("a".data), ("b".data), ("c".data)] chainOracleW ("t".data)
          chainStepsW).output = true ∧
      containsSub (chainStepsW.get ⟨j, hj⟩).agent
        (runChain [("a".data), ("b".data), ("c".data)] chainOracleW ("t".data)
          chainStepsW).output = true ∧
      (∀ m ∈ (runChain [("a".data), ("b".data), ("c".data)] chainOracleW
          ("t".data) chainStepsW).executed, m ≤ j) ∧
      ((runChain [("a".data), ("b".data), ("c".data)] chainOracleW ("t".data)
            chainStepsW).output =
          stepNotFoundMsg j (chainStepsW.get ⟨j, hj⟩).agent
            [("a".data), ("b".data), ("c".data)] ∨
        ∃ ro, (runChain [("a".data), ("b".data), ("c".data)] chainOracleW
            ("t".data) chainStepsW).output =
          stepFailMsg j (chainStepsW.get ⟨j, hj⟩).agent ro) :=
  ⟨by decide,
    C4_pipeline_fail_fast [("a".data), ("b".data), ("c".data)] chainOracleW
      ("t".data) chainStepsW (by decide)⟩

end PiSpec
